import Mathlib

/-!
Verification of the Metadata-Editor string-table codec.

Shallow embedding of the `MetadataFile` class of `src/app.py` / `src/App.py`
(the two copies carry an identical `MetadataFile` class).  Byte buffers are
`List Nat` (each entry a byte value); Python `bytearray` slice assignment,
`memoryview` slicing, `struct.unpack_from` / `struct.pack_into` bounds and
value checks, and Python `list` indexing (including negative indices) are
modelled explicitly.  Exceptions are modelled with `Except` / `Option`.
-/

set_option maxHeartbeats 1000000

namespace MetadataEditor

/-- Error raised by `parse`: either the magic-number check
(`Exception("Invalid metadata file")`) or a `struct.error` from
`struct.unpack_from` at the given offset (buffer too short). -/
inductive ParseErr where
  | invalidMagic : ParseErr
  | structError : Nat → ParseErr
deriving DecidableEq, Repr

/-- Little-endian 32-bit value assembled from four bytes of the buffer.
Out-of-range positions read as 0; the `struct.unpack_from` bounds check is
done separately in `readU32`. -/
def readU32v (buf : List Nat) (pos : Nat) : Nat :=
  buf.getD pos 0 + 256 * buf.getD (pos + 1) 0 + 65536 * buf.getD (pos + 2) 0 +
    16777216 * buf.getD (pos + 3) 0

/-- `struct.unpack_from("<I", buf, pos)`: checked little-endian u32 read. -/
def readU32 (buf : List Nat) (pos : Nat) : Except ParseErr Nat :=
  if pos + 4 ≤ buf.length then .ok (readU32v buf pos) else .error (.structError pos)

/-- `struct.unpack_from("<i", buf, pos)`: checked little-endian i32 read. -/
def readI32 (buf : List Nat) (pos : Nat) : Except ParseErr Int :=
  if pos + 4 ≤ buf.length then
    .ok (if readU32v buf pos < 2 ^ 31 then (readU32v buf pos : Int)
         else (readU32v buf pos : Int) - 2 ^ 32)
  else .error (.structError pos)

/-- Little-endian encoding of a `u32` value as four bytes
(`struct.pack("<I", v)`). -/
def encodeU32 (v : Nat) : List Nat :=
  [v % 256, v / 256 % 256, v / 65536 % 256, v / 16777216 % 256]

/-- Python `memoryview`/`bytes` slicing `buf[a:b]` for nonnegative `a`, `b`:
indices are clamped to the buffer, never raising. -/
def sliceClamp (buf : List Nat) (a b : Nat) : List Nat :=
  (buf.take b).drop a

/-- Python `bytearray` slice assignment `buf[a:b] = data` for nonnegative
`a ≤ b`: the clamped slice is spliced out and `data` inserted in its place
(growing the buffer when the slice is shorter than `data`). -/
def sliceAssign (buf : List Nat) (a b : Nat) (data : List Nat) : List Nat :=
  let a2 := min a buf.length
  let b2 := max a2 (min b buf.length)
  buf.take a2 ++ data ++ buf.drop b2

/-- In-place byte write used for `struct.pack_into`: fails (returns `none`)
when the write would run past the end of the buffer. -/
def writeBytesAt (buf : List Nat) (pos : Nat) (data : List Nat) : Option (List Nat) :=
  if pos + data.length ≤ buf.length then
    some (buf.take pos ++ data ++ buf.drop (pos + data.length))
  else none

/-- `struct.pack_into("<II", buf, pos, v1, v2)`: checks that both values fit
in 32 bits (`struct.error` otherwise) and that the 8-byte write is in
bounds. -/
def pack2 (buf : List Nat) (pos : Nat) (v1 v2 : Nat) : Option (List Nat) :=
  if v1 < 2 ^ 32 ∧ v2 < 2 ^ 32 then
    writeBytesAt buf pos (encodeU32 v1 ++ encodeU32 v2)
  else none

/-- The nested `MetadataFile.StringLiteral` record: `(length, offset)`. -/
structure StringLiteral where
  length : Nat
  offset : Nat
deriving DecidableEq, Repr, Inhabited

/-- In-memory state of a parsed `MetadataFile` (the `filename` path and the
constant `data_info_position = 16` are omitted; the latter is inlined where
the source uses it). -/
structure MetadataFile where
  file_data : List Nat
  version : Int
  string_literal_offset : Nat
  string_literal_count : Nat
  string_literal_data_offset : Nat
  string_literal_data_count : Nat
  string_literals : List StringLiteral
  str_bytes : List (List Nat)
deriving DecidableEq, Repr, Inhabited

instance {e a : Type} [DecidableEq e] [DecidableEq a] : DecidableEq (Except e a) :=
  fun x y =>
    match x, y with
    | .ok x1, .ok y1 =>
      if h : x1 = y1 then .isTrue (by rw [h]) else .isFalse (fun hc => h (by injection hc))
    | .error x1, .error y1 =>
      if h : x1 = y1 then .isTrue (by rw [h]) else .isFalse (fun hc => h (by injection hc))
    | .ok _, .error _ => .isFalse (fun hc => Except.noConfusion hc)
    | .error _, .ok _ => .isFalse (fun hc => Except.noConfusion hc)

/-- `MetadataFile.MAGIC`. -/
def MAGIC : Nat := 0xFAB11BAF

/-- The descriptor-reading loop of `parse`: `count` descriptors starting at
index `i`, each read with `struct.unpack_from("<II", f, slo + i*8)`. -/
def readDescs (buf : List Nat) (slo : Nat) : Nat → Nat → Except ParseErr (List StringLiteral)
  | 0, _ => .ok []
  | n + 1, i =>
    if slo + i * 8 + 8 ≤ buf.length then do
      let rest ← readDescs buf slo n (i + 1)
      .ok (⟨readU32v buf (slo + i * 8), readU32v buf (slo + i * 8 + 4)⟩ :: rest)
    else .error (.structError (slo + i * 8))

/-- `MetadataFile.parse` (called from `__init__` on the raw file bytes). -/
def parse (buf : List Nat) : Except ParseErr MetadataFile := do
  let magic ← readU32 buf 0
  if magic = MAGIC then
    let version ← readI32 buf 4
    let slo ← readU32 buf 8
    let tsize ← readU32 buf 12
    let cnt := tsize / 8
    let sdo ← readU32 buf 16
    let sdc ← readU32 buf 20
    let lits ← readDescs buf slo cnt 0
    let sbs := lits.map fun l => sliceClamp buf (sdo + l.offset) (sdo + l.offset + l.length)
    .ok ⟨buf, version, slo, cnt, sdo, sdc, lits, sbs⟩
  else .error .invalidMagic

/-- Python `bytes.rstrip(b"\x00")`: drop trailing zero bytes. -/
def rstripNull (l : List Nat) : List Nat :=
  (l.reverse.dropWhile fun b => b = 0).reverse

/-- Continuation byte test `0x80 ≤ b ≤ 0xBF`. -/
def isCont (b : Nat) : Bool := 0x80 ≤ b && b ≤ 0xBF

/-- Valid second byte of a three-byte sequence led by `b0` (CPython's
UTF-8 decoder: `0xE0` forbids overlongs, `0xED` forbids surrogates). -/
def cont2ok (b0 b1 : Nat) : Bool :=
  if b0 = 0xE0 then 0xA0 ≤ b1 && b1 ≤ 0xBF
  else if b0 = 0xED then 0x80 ≤ b1 && b1 ≤ 0x9F
  else isCont b1

/-- Valid second byte of a four-byte sequence led by `b0` (`0xF0` forbids
overlongs, `0xF4` caps at `U+10FFFF`). -/
def cont3ok (b0 b1 : Nat) : Bool :=
  if b0 = 0xF0 then 0x90 ≤ b1 && b1 ≤ 0xBF
  else if b0 = 0xF4 then 0x80 ≤ b1 && b1 ≤ 0x8F
  else isCont b1

/-- Python `bytes.decode("utf-8", errors="ignore")`: UTF-8 decoding that
silently skips invalid sequences, following CPython's maximal-subpart
error handling (each error consumes the longest prefix of a valid
sequence, at least one byte). -/
def utf8DecodeIgnore : List Nat → List Char
  | [] => []
  | b0 :: r0 =>
    if b0 < 0x80 then Char.ofNat b0 :: utf8DecodeIgnore r0
    else if b0 < 0xC2 then utf8DecodeIgnore r0
    else if b0 < 0xE0 then
      match r0 with
      | [] => []
      | b1 :: r1 =>
        if isCont b1 then
          Char.ofNat ((b0 - 0xC0) * 0x40 + (b1 - 0x80)) :: utf8DecodeIgnore r1
        else utf8DecodeIgnore (b1 :: r1)
    else if b0 < 0xF0 then
      match r0 with
      | [] => []
      | b1 :: r1 =>
        if cont2ok b0 b1 then
          match r1 with
          | [] => []
          | b2 :: r2 =>
            if isCont b2 then
              Char.ofNat ((b0 - 0xE0) * 0x1000 + (b1 - 0x80) * 0x40 + (b2 - 0x80)) ::
                utf8DecodeIgnore r2
            else utf8DecodeIgnore (b2 :: r2)
        else utf8DecodeIgnore (b1 :: r1)
    else if b0 < 0xF5 then
      match r0 with
      | [] => []
      | b1 :: r1 =>
        if cont3ok b0 b1 then
          match r1 with
          | [] => []
          | b2 :: r2 =>
            if isCont b2 then
              match r2 with
              | [] => []
              | b3 :: r3 =>
                if isCont b3 then
                  Char.ofNat ((b0 - 0xF0) * 0x40000 + (b1 - 0x80) * 0x1000 +
                      (b2 - 0x80) * 0x40 + (b3 - 0x80)) :: utf8DecodeIgnore r3
                else utf8DecodeIgnore (b3 :: r3)
            else utf8DecodeIgnore (b2 :: r2)
        else utf8DecodeIgnore (b1 :: r1)
    else utf8DecodeIgnore r0

/-- The per-string transform of `get_strings`:
`s.rstrip(b"\x00").decode("utf-8", errors="ignore")`. -/
def decode_text (s : List Nat) : List Char :=
  utf8DecodeIgnore (rstripNull s)

/-- `MetadataFile.get_strings`. -/
def get_strings (d : MetadataFile) : List (List Char) :=
  d.str_bytes.map decode_text

/-- UTF-8 encoding of one character (`str.encode("utf-8")`, per char). -/
def utf8EncodeChar (c : Char) : List Nat :=
  let n := c.toNat
  if n < 0x80 then [n]
  else if n < 0x800 then [0xC0 + n / 0x40, 0x80 + n % 0x40]
  else if n < 0x10000 then
    [0xE0 + n / 0x1000, 0x80 + n / 0x40 % 0x40, 0x80 + n % 0x40]
  else
    [0xF0 + n / 0x40000, 0x80 + n / 0x1000 % 0x40, 0x80 + n / 0x40 % 0x40, 0x80 + n % 0x40]

/-- `text.encode("utf-8")` for a text modelled as a list of scalar values. -/
def utf8Encode : List Char → List Nat
  | [] => []
  | c :: cs => utf8EncodeChar c ++ utf8Encode cs

/-- `MetadataFile.set_string(index, new_value)`.  Python list assignment
`self.str_bytes[index] = ...` accepts indices in `[-n, n)` (negative
indices count from the end) and raises `IndexError` otherwise; a failure
leaves the object untouched, which the `none` result models. -/
def set_string (d : MetadataFile) (index : Int) (new_value : List Char) : Option MetadataFile :=
  let n : Int := d.str_bytes.length
  if 0 ≤ index ∧ index < n then
    some { d with str_bytes := d.str_bytes.set index.toNat (utf8Encode new_value ++ [0]) }
  else if -n ≤ index ∧ index < 0 then
    some { d with str_bytes := d.str_bytes.set (index + n).toNat (utf8Encode new_value ++ [0]) }
  else none

/-- The descriptor-rewriting loop of `save`: walks `string_literals` (for
its count) together with `str_bytes`, assigning each literal
`(length, offset) = (len(str_bytes[i]), running_total)` and packing it at
`pos`; returns the updated literals, the final `offset_count` and buffer.
`none` models the `IndexError` (str_bytes shorter than string_literals) or
a `struct.error` from `pack_into`; Python would leave a partial state
behind, but every caller abandons the object on exception. -/
def writeDescs : List StringLiteral → List (List Nat) → Nat → Nat → List Nat →
    Option (List StringLiteral × Nat × List Nat)
  | [], _, _, acc, buf => some ([], acc, buf)
  | _ :: _, [], _, _, _ => none
  | _ :: ls, s :: ss, pos, acc, buf => do
    let buf1 ← pack2 buf pos s.length acc
    let (rest, total, buf2) ← writeDescs ls ss (pos + 8) (acc + s.length) buf1
    some (⟨s.length, acc⟩ :: rest, total, buf2)

/-- `bytearray.extend(b"\x00" * (n - len(buf)))` guarded by the length
check: grow the buffer with zero bytes up to length `n`. -/
def extendTo (buf : List Nat) (n : Nat) : List Nat :=
  if buf.length < n then buf ++ List.replicate (n - buf.length) 0 else buf

/-- The alignment-padding step of `save`: when `pad > 0`, grow the buffer to
`endPos + pad` if needed and write `pad` zero bytes at `endPos`. -/
def padStage (buf : List Nat) (endPos pad : Nat) : List Nat :=
  if pad = 0 then buf
  else sliceAssign (extendTo buf (endPos + pad)) endPos (endPos + pad) (List.replicate pad 0)

/-- The payload-writing loop of `save`:
`file_data[new_pos:new_pos+len(data)] = data` for each payload in order. -/
def writeAllPayloads (buf : List Nat) (pos : Nat) : List (List Nat) → List Nat
  | [] => buf
  | s :: ss => writeAllPayloads (sliceAssign buf pos (pos + s.length) s) (pos + s.length) ss

/-- `MetadataFile.save`.  Returns the post-save object; the bytes the route
handlers write out / send are its `file_data`.  The source also leaves the
`string_literal_data_count` attribute stale (only the buffer copy at offset
20 is refreshed), which the record update mirrors. -/
def save (d : MetadataFile) : Option MetadataFile := do
  let (lits2, packed, buf1) ←
    writeDescs d.string_literals d.str_bytes d.string_literal_offset 0 d.file_data
  let endPos := d.string_literal_data_offset + packed
  let pad := (4 - (d.string_literal_data_offset + packed) % 4) % 4
  let buf2 := padStage buf1 endPos pad
  let total := packed + pad
  let buf3 := writeAllPayloads buf2 d.string_literal_data_offset d.str_bytes
  let buf4 ← pack2 buf3 16 d.string_literal_data_offset total
  some { d with file_data := buf4, string_literals := lits2 }

/-- The `/get_strings_page` route, after the file has been loaded: computes
`start = (page-1)*limit`, `end = min(start+limit, n)` and returns
`(all_strings[start:end], start, end < n)`.  The route parses `page` and
`limit` from the query string; valid pages are nonnegative, which the `Nat`
arguments capture. -/
def get_strings_page (d : MetadataFile) (page limit : Nat) : List (List Char) × Nat × Bool :=
  let all := get_strings d
  let start := (page - 1) * limit
  let stop := min (start + limit) all.length
  (((all.take stop).drop start), start, decide (stop < all.length))

/-- Strip all trailing NUL characters from a text. -/
def stripNullChars (cs : List Char) : List Char :=
  (cs.reverse.dropWhile fun c => c = Char.ofNat 0).reverse

/-- The spec's wording of `decode_text` (§4 `decode_text`): first decode the
payload lossily, then strip trailing NUL characters from the *decoded*
result.  Stated from the spec so it can be compared with the source's
`decode_text`, which strips trailing NUL bytes before decoding. -/
def decode_text_spec (s : List Nat) : List Char :=
  stripNullChars (utf8DecodeIgnore s)

/-- Total byte length of a list of payloads. -/
def sumLens (strs : List (List Nat)) : Nat :=
  (strs.map List.length).sum

/-- The descriptor list produced by `save`'s first loop: each payload gets
`(length, offset) = (its byte length, running total of earlier lengths)`. -/
def newDescs : List (List Nat) → Nat → List StringLiteral
  | [], _ => []
  | s :: ss, acc => ⟨s.length, acc⟩ :: newDescs ss (acc + s.length)

/-- The alignment padding `save` computes for a given data offset and
packed size: `(4 - (sdo + packed) % 4) % 4`. -/
def padFor (sdo packed : Nat) : Nat :=
  (4 - (sdo + packed) % 4) % 4

/-- A well-formed one-string example file: 24-byte header, descriptor table
at 24 with one entry `(length 4, offset 0)`, string data at 32 holding
`b"ab\x00\x00"` plus four spare bytes. -/
def exBuf : List Nat :=
  [0xAF, 0x1B, 0xB1, 0xFA, 1, 0, 0, 0, 24, 0, 0, 0, 8, 0, 0, 0, 32, 0, 0, 0, 8, 0, 0, 0,
   4, 0, 0, 0, 0, 0, 0, 0,
   97, 98, 0, 0, 0, 0, 0, 0]

/-- The document loaded from `exBuf`. -/
def exD : MetadataFile := ((parse exBuf).toOption).getD default

/-- The document after saving `exD`. -/
def exD2 : MetadataFile := (save exD).getD default

/-- A successfully-loading file whose descriptor table sits at offset 0,
on top of the header: `string_literal_offset = 0`, one descriptor read from
the magic/version bytes, `string_literal_data_offset = 24` (end of buffer),
so the (clamped) payload is empty.  Saving rewrites descriptor 0 over the
magic bytes. -/
def badBuf : List Nat :=
  [0xAF, 0x1B, 0xB1, 0xFA, 0, 0, 0, 0, 0, 0, 0, 0, 8, 0, 0, 0, 24, 0, 0, 0, 0, 0, 0, 0]

/-- The document loaded from `badBuf`. -/
def badD : MetadataFile := ((parse badBuf).toOption).getD default

/-- The document after saving `badD` (its magic bytes are zeroed). -/
def badD2 : MetadataFile := (save badD).getD default

/-- A file whose single descriptor claims 100 payload bytes at offset 0
while the buffer ends exactly at `string_literal_data_offset = 32`: the
payload span `[32, 132)` runs past the end of the buffer. -/
def exC3Buf : List Nat :=
  [0xAF, 0x1B, 0xB1, 0xFA, 1, 0, 0, 0, 24, 0, 0, 0, 8, 0, 0, 0, 32, 0, 0, 0, 0, 0, 0, 0,
   100, 0, 0, 0, 0, 0, 0, 0]

/-! ## Pointwise lemmas about buffer reads and writes -/

theorem getD_out (l : List Nat) {p : Nat} (h : l.length ≤ p) : l.getD p 0 = 0 := by
  simp [List.getD_eq_getElem?_getD, List.getElem?_eq_none h]

theorem eq_of_getD {l1 l2 : List Nat} (hlen : l1.length = l2.length)
    (h : ∀ p, p < l1.length → l1.getD p 0 = l2.getD p 0) : l1 = l2 := by
  apply List.ext_getElem hlen
  intro i h1 h2
  have := h i h1
  rwa [List.getD_eq_getElem?_getD, List.getD_eq_getElem?_getD,
    List.getElem?_eq_getElem h1, List.getElem?_eq_getElem h2] at this

theorem getD_splice (buf data : List Nat) (pos k p : Nat) (hpos : pos ≤ buf.length) :
    (buf.take pos ++ data ++ buf.drop k).getD p 0 =
      if p < pos then buf.getD p 0
      else if p < pos + data.length then data.getD (p - pos) 0
      else buf.getD (k + (p - pos - data.length)) 0 := by
  have hlt : (buf.take pos).length = pos := by simp [List.length_take]; omega
  simp only [List.getD_eq_getElem?_getD, List.append_assoc]
  by_cases h1 : p < pos
  · rw [List.getElem?_append_left (by omega), List.getElem?_take_of_lt h1, if_pos h1]
  · rw [List.getElem?_append_right (by omega), hlt, if_neg h1]
    by_cases h2 : p < pos + data.length
    · rw [List.getElem?_append_left (by omega), if_pos h2]
    · rw [List.getElem?_append_right (by omega), List.getElem?_drop, if_neg h2]

theorem writeBytesAt_eq_some {buf data out : List Nat} {pos : Nat}
    (h : writeBytesAt buf pos data = some out) :
    pos + data.length ≤ buf.length ∧
      out = buf.take pos ++ data ++ buf.drop (pos + data.length) := by
  unfold writeBytesAt at h
  split at h <;> simp_all

theorem writeBytesAt_isSome {buf data : List Nat} {pos : Nat}
    (h : pos + data.length ≤ buf.length) :
    writeBytesAt buf pos data = some (buf.take pos ++ data ++ buf.drop (pos + data.length)) := by
  unfold writeBytesAt
  rw [if_pos h]

theorem writeBytesAt_length {buf data out : List Nat} {pos : Nat}
    (h : writeBytesAt buf pos data = some out) : out.length = buf.length := by
  obtain ⟨hb, rfl⟩ := writeBytesAt_eq_some h
  simp [List.length_take, List.length_drop]
  omega

theorem writeBytesAt_getD {buf data out : List Nat} {pos : Nat}
    (h : writeBytesAt buf pos data = some out) (p : Nat) :
    out.getD p 0 = if p < pos then buf.getD p 0
      else if p < pos + data.length then data.getD (p - pos) 0
      else buf.getD p 0 := by
  obtain ⟨hb, rfl⟩ := writeBytesAt_eq_some h
  rw [getD_splice buf data pos (pos + data.length) p (by omega)]
  split_ifs with h1 h2
  · rfl
  · rfl
  · congr 1
    omega

theorem length_encodeU32 (v : Nat) : (encodeU32 v).length = 4 := rfl

theorem pack2_eq_some {buf out : List Nat} {pos v1 v2 : Nat}
    (h : pack2 buf pos v1 v2 = some out) :
    v1 < 2 ^ 32 ∧ v2 < 2 ^ 32 ∧ pos + 8 ≤ buf.length ∧
      writeBytesAt buf pos (encodeU32 v1 ++ encodeU32 v2) = some out := by
  unfold pack2 at h
  split at h
  · have h8 : (encodeU32 v1 ++ encodeU32 v2).length = 8 := rfl
    obtain ⟨hb, _⟩ := writeBytesAt_eq_some h
    rw [h8] at hb
    simp_all
  · exact absurd h (by simp)

theorem pack2_isSome {buf : List Nat} {pos v1 v2 : Nat}
    (h1 : v1 < 2 ^ 32) (h2 : v2 < 2 ^ 32) (h3 : pos + 8 ≤ buf.length) :
    ∃ out, pack2 buf pos v1 v2 = some out := by
  unfold pack2
  rw [if_pos ⟨h1, h2⟩]
  exact ⟨_, writeBytesAt_isSome (by rw [show (encodeU32 v1 ++ encodeU32 v2).length = 8 from rfl]; omega)⟩

theorem encodeU32_combine (v : Nat) (hv : v < 2 ^ 32) :
    (encodeU32 v).getD 0 0 + 256 * (encodeU32 v).getD 1 0 + 65536 * (encodeU32 v).getD 2 0 +
      16777216 * (encodeU32 v).getD 3 0 = v := by
  simp [encodeU32]
  omega

theorem readU32v_encode {buf : List Nat} {pos v : Nat} (hv : v < 2 ^ 32)
    (h : ∀ j, j < 4 → buf.getD (pos + j) 0 = (encodeU32 v).getD j 0) :
    readU32v buf pos = v := by
  have h0 := h 0 (by omega)
  have h1 := h 1 (by omega)
  have h2 := h 2 (by omega)
  have h3 := h 3 (by omega)
  rw [Nat.add_zero] at h0
  unfold readU32v
  rw [h0, h1, h2, h3]
  exact encodeU32_combine v hv

theorem extendTo_length (buf : List Nat) (n : Nat) :
    (extendTo buf n).length = max buf.length n := by
  unfold extendTo
  split <;> simp <;> omega

theorem extendTo_getD (buf : List Nat) (n p : Nat) :
    (extendTo buf n).getD p 0 = buf.getD p 0 := by
  unfold extendTo
  split
  · simp only [List.getD_eq_getElem?_getD]
    by_cases hp : p < buf.length
    · rw [List.getElem?_append_left hp]
    · have hb : buf[p]? = none := List.getElem?_eq_none (by omega)
      rw [List.getElem?_append_right (by omega), List.getElem?_replicate, hb]
      split <;> rfl
  · rfl

theorem padStage_eq (buf : List Nat) (e pad : Nat) (hpad : pad ≠ 0) :
    padStage buf e pad = (extendTo buf (e + pad)).take e ++ List.replicate pad 0 ++
      (extendTo buf (e + pad)).drop (e + pad) := by
  have hel : (extendTo buf (e + pad)).length = max buf.length (e + pad) := extendTo_length _ _
  unfold padStage sliceAssign
  rw [if_neg hpad]
  have h1 : min e (extendTo buf (e + pad)).length = e := by omega
  have h2 : min (e + pad) (extendTo buf (e + pad)).length = e + pad := by omega
  simp only [h1, h2]
  have h3 : max e (e + pad) = e + pad := by omega
  rw [h3]

theorem padStage_length (buf : List Nat) (e pad : Nat) :
    (padStage buf e pad).length = if pad = 0 then buf.length else max buf.length (e + pad) := by
  by_cases hpad : pad = 0
  · simp [padStage, hpad]
  · rw [padStage_eq buf e pad hpad, if_neg hpad]
    have hel : (extendTo buf (e + pad)).length = max buf.length (e + pad) := extendTo_length _ _
    simp [List.length_take, List.length_drop, hel]
    omega

theorem padStage_getD (buf : List Nat) (e pad p : Nat) :
    (padStage buf e pad).getD p 0 =
      if p < e then buf.getD p 0
      else if p < e + pad then 0
      else buf.getD p 0 := by
  by_cases hpad : pad = 0
  · simp only [padStage, hpad, if_pos rfl]
    split_ifs <;> first | rfl | omega
  · have hel : (extendTo buf (e + pad)).length = max buf.length (e + pad) := extendTo_length _ _
    rw [padStage_eq buf e pad hpad, getD_splice _ _ _ _ _ (by omega)]
    rw [List.length_replicate]
    split_ifs with h1 h2
    · exact extendTo_getD _ _ _
    · simp only [List.getD_eq_getElem?_getD, List.getElem?_replicate]
      split <;> rfl
    · have : e + pad + (p - e - pad) = p := by omega
      rw [this, extendTo_getD]

theorem sumLens_nil : sumLens [] = 0 := rfl

theorem sumLens_cons (s : List Nat) (ss : List (List Nat)) :
    sumLens (s :: ss) = s.length + sumLens ss := by
  simp [sumLens]

theorem length_flatten_eq_sumLens (ps : List (List Nat)) : ps.flatten.length = sumLens ps := by
  simp [sumLens, List.length_flatten]

theorem sliceAssign_nil_data (buf : List Nat) (a b : Nat) (hab : b ≤ a) :
    sliceAssign buf a b ([] : List Nat) = buf := by
  unfold sliceAssign
  have h1 : max (min a buf.length) (min b buf.length) = min a buf.length := by omega
  simp only [h1]
  simp [List.take_append_drop]

theorem writeAll_of_flatten_nil (ps : List (List Nat)) : ∀ (buf : List Nat) (start : Nat),
    ps.flatten = [] → writeAllPayloads buf start ps = buf := by
  induction ps with
  | nil => intro buf start _; rfl
  | cons s ss ih =>
    intro buf start h
    rw [List.flatten_cons, List.append_eq_nil] at h
    obtain ⟨hs, hss⟩ := h
    unfold writeAllPayloads
    rw [hs]
    simp only [List.length_nil, Nat.add_zero]
    rw [sliceAssign_nil_data buf start start (le_refl _)]
    exact ih buf start hss

theorem writeAll_of_start_le (ps : List (List Nat)) : ∀ (buf : List Nat) (start : Nat),
    start ≤ buf.length →
    writeAllPayloads buf start ps =
      buf.take start ++ ps.flatten ++ buf.drop (start + sumLens ps) := by
  induction ps with
  | nil =>
    intro buf start h
    simp [writeAllPayloads, sumLens, List.take_append_drop]
  | cons s ss ih =>
    intro buf start h
    unfold writeAllPayloads
    have ha : min start buf.length = start := Nat.min_eq_left h
    have hb : max start (min (start + s.length) buf.length) =
        min (start + s.length) buf.length := by omega
    have hsa : sliceAssign buf start (start + s.length) s =
        buf.take start ++ s ++ buf.drop (min (start + s.length) buf.length) := by
      unfold sliceAssign
      dsimp only
      rw [ha, hb]
    rw [hsa]
    set A := buf.take start ++ s ++ buf.drop (min (start + s.length) buf.length) with hA
    have htl : (buf.take start).length = start := by
      rw [List.length_take]; omega
    have hlen2 : (buf.take start ++ s).length = start + s.length := by
      rw [List.length_append, htl]
    have hAlen : start + s.length ≤ A.length := by
      rw [hA]; simp only [List.length_append, List.length_drop, htl]; omega
    rw [ih A (start + s.length) hAlen]
    have htake : A.take (start + s.length) = buf.take start ++ s := by
      rw [hA, List.append_assoc]
      have h5 := @List.take_left' Nat (buf.take start ++ s)
        (buf.drop (min (start + s.length) buf.length)) (start + s.length) hlen2
      rwa [List.append_assoc] at h5
    have hdrop0 : A.drop (start + s.length) = buf.drop (min (start + s.length) buf.length) := by
      rw [hA, List.append_assoc]
      have h5 := @List.drop_left' Nat (buf.take start ++ s)
        (buf.drop (min (start + s.length) buf.length)) (start + s.length) hlen2
      rwa [List.append_assoc] at h5
    have hdropsum : A.drop (start + s.length + sumLens ss) =
        buf.drop (start + (s.length + sumLens ss)) := by
      calc A.drop (start + s.length + sumLens ss)
          = (A.drop (start + s.length)).drop (sumLens ss) :=
            (List.drop_drop (sumLens ss) (start + s.length) A).symm
        _ = (buf.drop (min (start + s.length) buf.length)).drop (sumLens ss) := by rw [hdrop0]
        _ = buf.drop (min (start + s.length) buf.length + sumLens ss) :=
            List.drop_drop (sumLens ss) _ buf
        _ = buf.drop (start + (s.length + sumLens ss)) := by
            rcases Nat.lt_or_ge (start + s.length) buf.length with h' | h'
            · rw [Nat.min_eq_left (by omega)]
              congr 1
              omega
            · rw [List.drop_eq_nil_of_le (by omega), List.drop_eq_nil_of_le (by omega)]
    rw [htake, hdropsum, List.flatten_cons, sumLens_cons]
    simp [List.append_assoc]

theorem writeAll_length_ge (ps : List (List Nat)) : ∀ (buf : List Nat) (start : Nat),
    buf.length ≤ (writeAllPayloads buf start ps).length := by
  induction ps with
  | nil => intro buf start; exact le_refl _
  | cons s ss ih =>
    intro buf start
    unfold writeAllPayloads
    refine le_trans ?_ (ih _ _)
    unfold sliceAssign
    simp only [List.length_append, List.length_take, List.length_drop]
    omega

theorem newDescs_length (ss : List (List Nat)) : ∀ acc, (newDescs ss acc).length = ss.length := by
  induction ss with
  | nil => intro acc; rfl
  | cons s ss ih => intro acc; simp [newDescs, ih]

theorem newDescs_getD (ss : List (List Nat)) : ∀ acc i, i < ss.length →
    (newDescs ss acc).getD i default =
      ⟨(ss.getD i []).length, acc + sumLens (ss.take i)⟩ := by
  induction ss with
  | nil => intro acc i h; simp at h
  | cons s ss ih =>
    intro acc i h
    cases i with
    | zero => simp [newDescs, sumLens]
    | succ i =>
      have := ih (acc + s.length) i (by simpa using h)
      simp only [newDescs, List.getD_cons_succ, List.take_succ_cons, sumLens_cons]
      rw [this]
      congr 1
      omega

theorem writeDescs_cons_eq (l : StringLiteral) (ls : List StringLiteral) (s : List Nat)
    (ss : List (List Nat)) (pos acc : Nat) (buf : List Nat) :
    writeDescs (l :: ls) (s :: ss) pos acc buf =
      (pack2 buf pos s.length acc).bind fun buf1 =>
        (writeDescs ls ss (pos + 8) (acc + s.length) buf1).bind fun r =>
          some (⟨s.length, acc⟩ :: r.1, r.2.1, r.2.2) := rfl

theorem writeDescs_some_spec :
    ∀ (lits : List StringLiteral) (strs : List (List Nat)) (pos acc : Nat) (buf : List Nat)
      (lits2 : List StringLiteral) (total : Nat) (out : List Nat),
    lits.length = strs.length →
    writeDescs lits strs pos acc buf = some (lits2, total, out) →
    lits2 = newDescs strs acc ∧
    total = acc + sumLens strs ∧
    out.length = buf.length ∧
    (strs ≠ [] → pos + 8 * strs.length ≤ buf.length) ∧
    (∀ p, p < pos ∨ pos + 8 * strs.length ≤ p → out.getD p 0 = buf.getD p 0) ∧
    (∀ i, i < strs.length → ∀ j, j < 8 →
      out.getD (pos + 8 * i + j) 0 =
        (encodeU32 (strs.getD i []).length ++
          encodeU32 (acc + sumLens (strs.take i))).getD j 0) ∧
    (∀ i, i < strs.length →
      (strs.getD i []).length < 2 ^ 32 ∧ acc + sumLens (strs.take i) < 2 ^ 32) := by
  intro lits
  induction lits with
  | nil =>
    intro strs pos acc buf lits2 total out hlen h
    have hstrs : strs = [] := by
      cases strs with
      | nil => rfl
      | cons s ss => simp at hlen
    subst hstrs
    simp only [writeDescs, Option.some.injEq, Prod.mk.injEq] at h
    obtain ⟨h1, h2, h3⟩ := h
    subst h1; subst h2; subst h3
    refine ⟨rfl, by simp [sumLens], rfl, by simp, ?_, ?_, ?_⟩
    · intro p _; rfl
    · intro i hi; simp at hi
    · intro i hi; simp at hi
  | cons l ls ih =>
    intro strs pos acc buf lits2 total out hlen h
    cases strs with
    | nil => simp at hlen
    | cons s ss =>
      have hlen' : ls.length = ss.length := by simpa using hlen
      rw [writeDescs_cons_eq] at h
      cases h1 : pack2 buf pos s.length acc with
      | none => rw [h1] at h; simp at h
      | some buf1 =>
        rw [h1, Option.some_bind] at h
        cases h2 : writeDescs ls ss (pos + 8) (acc + s.length) buf1 with
        | none => rw [h2] at h; simp at h
        | some triple =>
          obtain ⟨rest, total1, buf2⟩ := triple
          rw [h2, Option.some_bind] at h
          simp only [Option.some.injEq, Prod.mk.injEq] at h
          obtain ⟨hl2, ht2, ho2⟩ := h
          obtain ⟨hsl32, hacc32, hpos8, hwb⟩ := pack2_eq_some h1
          have hb1len : buf1.length = buf.length := writeBytesAt_length hwb
          obtain ⟨ihl, iht, ihlen, ihbound, ihframe, ihdesc, ihval⟩ :=
            ih ss (pos + 8) (acc + s.length) buf1 rest total1 buf2 hlen' h2
          have henc8 : (encodeU32 s.length ++ encodeU32 acc).length = 8 := rfl
          subst hl2; subst ht2; subst ho2
          refine ⟨?_, ?_, ?_, ?_, ?_, ?_, ?_⟩
          · rw [ihl]; rfl
          · rw [iht, sumLens_cons]; omega
          · rw [ihlen, hb1len]
          · intro _
            rcases List.eq_nil_or_concat ss with hss | _
            · subst hss
              simp only [List.length_cons, List.length_nil]
              omega
            · have := ihbound (by rintro rfl; simp_all)
              simp only [List.length_cons]
              omega
          · intro p hp
            have hframe1 : buf2.getD p 0 = buf1.getD p 0 := by
              apply ihframe
              rcases hp with hp | hp
              · left; omega
              · right; simp only [List.length_cons] at hp; omega
            rw [hframe1, writeBytesAt_getD hwb]
            rw [henc8]
            split_ifs with hc1 hc2
            · rfl
            · exfalso
              rcases hp with hp | hp
              · omega
              · simp only [List.length_cons] at hp; omega
            · rfl
          · intro i hi j hj
            cases i with
            | zero =>
              have hf : buf2.getD (pos + 8 * 0 + j) 0 = buf1.getD (pos + 8 * 0 + j) 0 := by
                apply ihframe; left; omega
              have hidx : pos + 8 * 0 + j - pos = j := by omega
              rw [hf, writeBytesAt_getD hwb, henc8, if_neg (by omega), if_pos (by omega), hidx]
              simp [sumLens]
            | succ i =>
              have hii : i < ss.length := by simpa using hi
              have hdesc := ihdesc i hii j hj
              have hidx : pos + 8 * (i + 1) + j = pos + 8 + 8 * i + j := by omega
              rw [hidx, hdesc]
              simp only [List.getD_cons_succ, List.take_succ_cons, sumLens_cons]
              have harith : acc + s.length + sumLens (List.take i ss) =
                  acc + (s.length + sumLens (List.take i ss)) := by omega
              rw [harith]
          · intro i hi
            cases i with
            | zero =>
              refine ⟨by simpa using hsl32, ?_⟩
              simp only [List.take_zero, sumLens_nil]
              omega
            | succ i =>
              have hii : i < ss.length := by simpa using hi
              have := ihval i hii
              simp only [List.getD_cons_succ, List.take_succ_cons, sumLens_cons]
              refine ⟨this.1, ?_⟩
              have := this.2
              omega

theorem writeDescs_isSome :
    ∀ (lits : List StringLiteral) (strs : List (List Nat)) (pos acc : Nat) (buf : List Nat),
    lits.length = strs.length →
    pos + 8 * strs.length ≤ buf.length →
    acc + sumLens strs < 2 ^ 32 →
    ∃ res, writeDescs lits strs pos acc buf = some res := by
  intro lits
  induction lits with
  | nil =>
    intro strs pos acc buf hlen _ _
    have hstrs : strs = [] := by
      cases strs with
      | nil => rfl
      | cons s ss => simp at hlen
    subst hstrs
    exact ⟨_, rfl⟩
  | cons l ls ih =>
    intro strs pos acc buf hlen hb hv
    cases strs with
    | nil => simp at hlen
    | cons s ss =>
      have hlen' : ls.length = ss.length := by simpa using hlen
      rw [sumLens_cons] at hv
      simp only [List.length_cons] at hb
      obtain ⟨buf1, h1⟩ := @pack2_isSome buf pos s.length acc (by omega) (by omega) (by omega)
      have hb1len : buf1.length = buf.length := writeBytesAt_length (pack2_eq_some h1).2.2.2
      obtain ⟨res, h2⟩ := ih ss (pos + 8) (acc + s.length) buf1 hlen'
        (by omega) (by omega)
      obtain ⟨rest, total1, buf2⟩ := res
      refine ⟨(⟨s.length, acc⟩ :: rest, total1, buf2), ?_⟩
      rw [writeDescs_cons_eq, h1, Option.some_bind, h2, Option.some_bind]

/-! ## Characterizing `readDescs` and `parse` -/

theorem exc_ok_bind {e a b : Type} (x : a) (f : a → Except e b) :
    (Except.ok x : Except e a) >>= f = f x := rfl

theorem exc_error_bind {e a b : Type} (err : e) (f : a → Except e b) :
    (Except.error err : Except e a) >>= f = Except.error err := rfl

theorem readDescs_succ_eq (buf : List Nat) (slo n i : Nat) :
    readDescs buf slo (n + 1) i =
      if slo + i * 8 + 8 ≤ buf.length then
        (readDescs buf slo n (i + 1)) >>= fun rest =>
          .ok (⟨readU32v buf (slo + i * 8), readU32v buf (slo + i * 8 + 4)⟩ :: rest)
      else .error (.structError (slo + i * 8)) := rfl

theorem readDescs_ok_spec (buf : List Nat) (slo : Nat) :
    ∀ (n i : Nat) (lits : List StringLiteral),
    readDescs buf slo n i = .ok lits →
    lits.length = n ∧
    (∀ j, j < n → slo + (i + j) * 8 + 8 ≤ buf.length) ∧
    (∀ j, j < n → lits.getD j default =
      ⟨readU32v buf (slo + (i + j) * 8), readU32v buf (slo + (i + j) * 8 + 4)⟩) := by
  intro n
  induction n with
  | zero =>
    intro i lits h
    simp only [readDescs, Except.ok.injEq] at h
    subst h
    exact ⟨rfl, by intro j hj; omega, by intro j hj; omega⟩
  | succ n ih =>
    intro i lits h
    rw [readDescs_succ_eq] at h
    by_cases hb : slo + i * 8 + 8 ≤ buf.length
    · rw [if_pos hb] at h
      cases hr : readDescs buf slo n (i + 1) with
      | error e => rw [hr, exc_error_bind] at h; exact Except.noConfusion h
      | ok rest =>
        rw [hr, exc_ok_bind] at h
        injection h with h2
        subst h2
        obtain ⟨ihl, ihb, ihv⟩ := ih (i + 1) rest hr
        refine ⟨by simp [ihl], ?_, ?_⟩
        · intro j hj
          cases j with
          | zero => omega
          | succ j =>
            have := ihb j (by omega)
            omega
        · intro j hj
          cases j with
          | zero =>
            simp only [List.getD_cons_zero]
            have h1 : (i + 0) * 8 = i * 8 := by omega
            rw [h1]
          | succ j =>
            have hv := ihv j (by omega)
            simp only [List.getD_cons_succ]
            have h1 : i + (j + 1) = i + 1 + j := by omega
            rw [h1]
            exact hv
    · rw [if_neg hb] at h
      exact Except.noConfusion h

theorem readDescs_isOk (buf : List Nat) (slo : Nat) :
    ∀ n i, slo + (i + n) * 8 ≤ buf.length ∨ n = 0 →
    ∃ lits, readDescs buf slo n i = .ok lits := by
  intro n
  induction n with
  | zero => intro i _; exact ⟨[], rfl⟩
  | succ n ih =>
    intro i hb
    have hb2 : slo + (i + (n + 1)) * 8 ≤ buf.length := by
      rcases hb with hb | hb
      · exact hb
      · omega
    obtain ⟨rest, hr⟩ := ih (i + 1) (Or.inl (by omega))
    refine ⟨⟨readU32v buf (slo + i * 8), readU32v buf (slo + i * 8 + 4)⟩ :: rest, ?_⟩
    rw [readDescs_succ_eq, if_pos (by omega), hr, exc_ok_bind]

theorem parse_unfold (buf : List Nat) :
    parse buf =
      if 0 + 4 ≤ buf.length then
        if readU32v buf 0 = MAGIC then
          if 4 + 4 ≤ buf.length then
            if 8 + 4 ≤ buf.length then
              if 12 + 4 ≤ buf.length then
                if 16 + 4 ≤ buf.length then
                  if 20 + 4 ≤ buf.length then
                    (readDescs buf (readU32v buf 8) (readU32v buf 12 / 8) 0) >>= fun lits =>
                      .ok ⟨buf,
                        (if readU32v buf 4 < 2 ^ 31 then (readU32v buf 4 : Int)
                         else (readU32v buf 4 : Int) - 2 ^ 32),
                        readU32v buf 8, readU32v buf 12 / 8, readU32v buf 16, readU32v buf 20,
                        lits,
                        lits.map fun l => sliceClamp buf (readU32v buf 16 + l.offset)
                          (readU32v buf 16 + l.offset + l.length)⟩
                  else .error (.structError 20)
                else .error (.structError 16)
              else .error (.structError 12)
            else .error (.structError 8)
          else .error (.structError 4)
        else .error .invalidMagic
      else .error (.structError 0) := by
  unfold parse readU32 readI32
  by_cases h0 : 0 + 4 ≤ buf.length
  · simp only [if_pos h0, exc_ok_bind]
    by_cases hm : readU32v buf 0 = MAGIC
    · simp only [if_pos hm]
      by_cases h4 : 4 + 4 ≤ buf.length
      · simp only [if_pos h4, exc_ok_bind]
        by_cases h8 : 8 + 4 ≤ buf.length
        · simp only [if_pos h8, exc_ok_bind]
          by_cases h12 : 12 + 4 ≤ buf.length
          · simp only [if_pos h12, exc_ok_bind]
            by_cases h16 : 16 + 4 ≤ buf.length
            · simp only [if_pos h16, exc_ok_bind]
              by_cases h20 : 20 + 4 ≤ buf.length
              · simp only [if_pos h20, exc_ok_bind]
              · simp only [if_neg h20, exc_error_bind]
            · simp only [if_neg h16, exc_error_bind]
          · simp only [if_neg h12, exc_error_bind]
        · simp only [if_neg h8, exc_error_bind]
      · simp only [if_neg h4, exc_error_bind]
    · simp only [if_neg hm]
  · simp only [if_neg h0, exc_error_bind]

theorem parse_ok_spec {buf : List Nat} {d : MetadataFile} (h : parse buf = .ok d) :
    24 ≤ buf.length ∧ readU32v buf 0 = MAGIC ∧ d.file_data = buf ∧
    d.string_literal_offset = readU32v buf 8 ∧
    d.string_literal_count = readU32v buf 12 / 8 ∧
    d.string_literal_data_offset = readU32v buf 16 ∧
    readDescs buf (readU32v buf 8) (readU32v buf 12 / 8) 0 = .ok d.string_literals ∧
    d.str_bytes = d.string_literals.map (fun l =>
      sliceClamp buf (readU32v buf 16 + l.offset)
        (readU32v buf 16 + l.offset + l.length)) := by
  rw [parse_unfold] at h
  by_cases h20 : 20 + 4 ≤ buf.length
  · have h0 : 0 + 4 ≤ buf.length := by omega
    have h4 : 4 + 4 ≤ buf.length := by omega
    have h8 : 8 + 4 ≤ buf.length := by omega
    have h12 : 12 + 4 ≤ buf.length := by omega
    have h16 : 16 + 4 ≤ buf.length := by omega
    rw [if_pos h0] at h
    by_cases hm : readU32v buf 0 = MAGIC
    · rw [if_pos hm, if_pos h4, if_pos h8, if_pos h12, if_pos h16, if_pos h20] at h
      cases hr : readDescs buf (readU32v buf 8) (readU32v buf 12 / 8) 0 with
      | error e => rw [hr, exc_error_bind] at h; exact Except.noConfusion h
      | ok lits =>
        rw [hr, exc_ok_bind] at h
        injection h with h2
        subst h2
        exact ⟨by omega, hm, rfl, rfl, rfl, rfl, rfl, rfl⟩
    · rw [if_neg hm] at h
      exact Except.noConfusion h
  · exfalso
    by_cases h0 : 0 + 4 ≤ buf.length <;>
      by_cases hm : readU32v buf 0 = MAGIC <;>
        by_cases h4 : 4 + 4 ≤ buf.length <;>
          by_cases h8 : 8 + 4 ≤ buf.length <;>
            by_cases h12 : 12 + 4 ≤ buf.length <;>
              by_cases h16 : 16 + 4 ≤ buf.length <;>
                simp_all

/-! ## Further pointwise helpers -/

theorem eq_of_getD_gen {α : Type} (d0 : α) {l1 l2 : List α} (hlen : l1.length = l2.length)
    (h : ∀ p, p < l1.length → l1.getD p d0 = l2.getD p d0) : l1 = l2 := by
  apply List.ext_getElem hlen
  intro i h1 h2
  have := h i h1
  rwa [List.getD_eq_getElem?_getD, List.getD_eq_getElem?_getD,
    List.getElem?_eq_getElem h1, List.getElem?_eq_getElem h2] at this

theorem readU32v_congr {b1 b2 : List Nat} {pos1 pos2 : Nat}
    (h : ∀ j, j < 4 → b1.getD (pos1 + j) 0 = b2.getD (pos2 + j) 0) :
    readU32v b1 pos1 = readU32v b2 pos2 := by
  have h0 := h 0 (by omega)
  have h1 := h 1 (by omega)
  have h2 := h 2 (by omega)
  have h3 := h 3 (by omega)
  rw [Nat.add_zero, Nat.add_zero] at h0
  unfold readU32v
  rw [h0, h1, h2, h3]

theorem getD_append_left {x y : List Nat} {j : Nat} (h : j < x.length) :
    (x ++ y).getD j 0 = x.getD j 0 := by
  rw [List.getD_eq_getElem?_getD, List.getD_eq_getElem?_getD, List.getElem?_append_left h]

theorem getD_append_right {x y : List Nat} (j : Nat) :
    (x ++ y).getD (x.length + j) 0 = y.getD j 0 := by
  rw [List.getD_eq_getElem?_getD, List.getD_eq_getElem?_getD,
    List.getElem?_append_right (by omega)]
  congr 2
  omega

theorem sliceClamp_length (buf : List Nat) (a b : Nat) :
    (sliceClamp buf a b).length = min b buf.length - a := by
  unfold sliceClamp
  simp [List.length_drop, List.length_take]

theorem sliceClamp_getD {buf : List Nat} {a b q : Nat} (h : a + q < min b buf.length) :
    (sliceClamp buf a b).getD q 0 = buf.getD (a + q) 0 := by
  unfold sliceClamp
  rw [List.getD_eq_getElem?_getD, List.getD_eq_getElem?_getD, List.getElem?_drop,
    List.getElem?_take_of_lt (by omega)]

theorem sliceClamp_ne_nil_lt {buf : List Nat} {a b : Nat} (h : sliceClamp buf a b ≠ []) :
    a < buf.length := by
  by_contra hc
  apply h
  unfold sliceClamp
  apply List.drop_eq_nil_of_le
  rw [List.length_take]
  omega

theorem sliceClamp_eq_of_getD {buf target : List Nat} {a : Nat}
    (hlen : a + target.length ≤ buf.length)
    (h : ∀ q, q < target.length → buf.getD (a + q) 0 = target.getD q 0) :
    sliceClamp buf a (a + target.length) = target := by
  apply eq_of_getD_gen 0
  · rw [sliceClamp_length]
    omega
  · intro q hq
    rw [sliceClamp_length] at hq
    rw [sliceClamp_getD (by omega)]
    exact h q (by omega)

theorem sliceClamp_nil {buf : List Nat} {a b : Nat} (h : min b buf.length ≤ a) :
    sliceClamp buf a b = [] := by
  unfold sliceClamp
  apply List.drop_eq_nil_of_le
  rw [List.length_take]
  omega

theorem sumLens_take_le (strs : List (List Nat)) (i : Nat) (hi : i < strs.length) :
    sumLens (strs.take i) + (strs.getD i []).length ≤ sumLens strs := by
  induction strs generalizing i with
  | nil => simp at hi
  | cons s ss ih =>
    cases i with
    | zero => simp [sumLens_cons, sumLens_nil]
    | succ i =>
      have := ih i (by simpa using hi)
      simp only [List.take_succ_cons, sumLens_cons, List.getD_cons_succ]
      omega

theorem flatten_getD_segment (strs : List (List Nat)) :
    ∀ i q, i < strs.length → q < (strs.getD i []).length →
    strs.flatten.getD (sumLens (strs.take i) + q) 0 = (strs.getD i []).getD q 0 := by
  induction strs with
  | nil => intro i q hi; simp at hi
  | cons s ss ih =>
    intro i q hi hq
    cases i with
    | zero =>
      simp only [List.take_zero, sumLens_nil, Nat.zero_add, List.flatten_cons,
        List.getD_cons_zero] at hq ⊢
      exact getD_append_left hq
    | succ i =>
      have hi2 : i < ss.length := by simpa using hi
      simp only [List.getD_cons_succ] at hq ⊢
      simp only [List.take_succ_cons, sumLens_cons, List.flatten_cons]
      have harith : s.length + sumLens (List.take i ss) + q = s.length + (sumLens (List.take i ss) + q) := by
        omega
      rw [harith, getD_append_right]
      exact ih i q hi2 hq

theorem write_id {buf data : List Nat} {a : Nat} (hlen : a + data.length ≤ buf.length)
    (h : ∀ q, q < data.length → buf.getD (a + q) 0 = data.getD q 0) :
    buf.take a ++ data ++ buf.drop (a + data.length) = buf := by
  apply eq_of_getD_gen 0
  · simp only [List.length_append, List.length_take, List.length_drop]
    omega
  · intro p hp
    rw [getD_splice buf data a (a + data.length) p (by omega)]
    split_ifs with h1 h2
    · rfl
    · rw [← h (p - a) (by omega)]
      congr 1
      omega
    · congr 1
      omega

/-! ## Characterizing `save` -/

theorem save_eq (d : MetadataFile) :
    save d =
      (writeDescs d.string_literals d.str_bytes d.string_literal_offset 0 d.file_data).bind
        fun r =>
          (pack2
            (writeAllPayloads
              (padStage r.2.2 (d.string_literal_data_offset + r.2.1)
                ((4 - (d.string_literal_data_offset + r.2.1) % 4) % 4))
              d.string_literal_data_offset d.str_bytes)
            16 d.string_literal_data_offset
            (r.2.1 + (4 - (d.string_literal_data_offset + r.2.1) % 4) % 4)).bind
          fun buf4 =>
            some { d with file_data := buf4, string_literals := r.1 } := rfl

theorem save_some_spec {d d2 : MetadataFile}
    (hlen : d.string_literals.length = d.str_bytes.length)
    (hdo_le : d.str_bytes.flatten ≠ [] →
      d.string_literal_data_offset ≤ d.file_data.length)
    (h : save d = some d2) :
    d2 = { d with file_data := d2.file_data, string_literals := newDescs d.str_bytes 0 } ∧
    d.file_data.length ≤ d2.file_data.length ∧
    d.string_literal_data_offset < 2 ^ 32 ∧
    sumLens d.str_bytes + padFor d.string_literal_data_offset (sumLens d.str_bytes) < 2 ^ 32 ∧
    24 ≤ d2.file_data.length ∧
    (d.str_bytes ≠ [] →
      d.string_literal_offset + 8 * d.str_bytes.length ≤ d.file_data.length) ∧
    (∀ j, j < 8 → d2.file_data.getD (16 + j) 0 =
      (encodeU32 d.string_literal_data_offset ++
        encodeU32 (sumLens d.str_bytes +
          padFor d.string_literal_data_offset (sumLens d.str_bytes))).getD j 0) ∧
    (∀ p, p < d.file_data.length → (p < 16 ∨ 24 ≤ p) →
      (p < d.string_literal_offset ∨ d.string_literal_offset + 8 * d.str_bytes.length ≤ p) →
      (p < d.string_literal_data_offset ∨
        d.string_literal_data_offset + sumLens d.str_bytes +
          padFor d.string_literal_data_offset (sumLens d.str_bytes) ≤ p) →
      d2.file_data.getD p 0 = d.file_data.getD p 0) ∧
    (∀ k, sumLens d.str_bytes ≤ k →
      k < sumLens d.str_bytes + padFor d.string_literal_data_offset (sumLens d.str_bytes) →
      d2.file_data.getD (d.string_literal_data_offset + k) 0 = 0) ∧
    (0 < sumLens d.str_bytes + padFor d.string_literal_data_offset (sumLens d.str_bytes) →
      d.string_literal_data_offset + sumLens d.str_bytes +
        padFor d.string_literal_data_offset (sumLens d.str_bytes) ≤ d2.file_data.length) := by
  simp only [padFor]
  rw [save_eq] at h
  cases hw : writeDescs d.string_literals d.str_bytes d.string_literal_offset 0 d.file_data with
  | none => rw [hw] at h; exact Option.noConfusion h
  | some r =>
    obtain ⟨lits2, packed, buf1⟩ := r
    rw [hw, Option.some_bind] at h
    dsimp only at h
    obtain ⟨hl2, htot, hb1len, hbound1, hframe1, hdesc1, hval1⟩ :=
      writeDescs_some_spec _ _ _ _ _ _ _ _ hlen hw
    rw [Nat.zero_add] at htot
    subst htot
    subst hl2
    set pad := (4 - (d.string_literal_data_offset + sumLens d.str_bytes) % 4) % 4 with hpadeq
    set ep := d.string_literal_data_offset + sumLens d.str_bytes with hepeq
    set buf2 := padStage buf1 ep pad with hbuf2
    set buf3 := writeAllPayloads buf2 d.string_literal_data_offset d.str_bytes with hbuf3
    cases hp : pack2 buf3 16 d.string_literal_data_offset (sumLens d.str_bytes + pad) with
    | none => rw [hp] at h; exact Option.noConfusion h
    | some buf4 =>
      rw [hp, Option.some_bind] at h
      injection h with h2
      subst h2
      dsimp only
      obtain ⟨hsdo32, hT32, h16len, hwrt⟩ := pack2_eq_some hp
      have henc8 : (encodeU32 d.string_literal_data_offset ++
          encodeU32 (sumLens d.str_bytes + pad)).length = 8 := rfl
      have hb4len : buf4.length = buf3.length := writeBytesAt_length hwrt
      have hb2len : buf2.length = if pad = 0 then buf1.length else max buf1.length (ep + pad) := by
        rw [hbuf2]; exact padStage_length buf1 ep pad
      have hb12 : buf1.length ≤ buf2.length := by
        rw [hb2len]; split <;> omega
      have hb23 : buf2.length ≤ buf3.length := by
        rw [hbuf3]; exact writeAll_length_ge d.str_bytes buf2 d.string_literal_data_offset
      have hpadle : pad ≤ 3 := by rw [hpadeq]; omega
      have hmod4 : (ep + pad) % 4 = 0 := by rw [hpadeq, hepeq]; omega
      have hbuf2_getD : ∀ p, buf2.getD p 0 =
          if p < ep then buf1.getD p 0 else if p < ep + pad then 0 else buf1.getD p 0 := by
        intro p
        rw [hbuf2]
        exact padStage_getD buf1 ep pad p
      have hsdo_le2 : d.str_bytes.flatten ≠ [] →
          d.string_literal_data_offset ≤ buf2.length := by
        intro hne
        have := hdo_le hne
        omega
      have hbuf3_getD : ∀ p, (p < d.string_literal_data_offset ∨
          d.string_literal_data_offset + sumLens d.str_bytes ≤ p) →
          buf3.getD p 0 = buf2.getD p 0 := by
        intro p hp2
        by_cases hfl : d.str_bytes.flatten = []
        · rw [hbuf3, writeAll_of_flatten_nil _ _ _ hfl]
        · rw [hbuf3, writeAll_of_start_le _ _ _ (hsdo_le2 hfl),
            getD_splice _ _ _ _ _ (hsdo_le2 hfl)]
          rw [length_flatten_eq_sumLens]
          rcases hp2 with hp2 | hp2
          · rw [if_pos hp2]
          · rw [if_neg (by omega), if_neg (by omega)]
            congr 1
            omega
      have hbuf3_data : ∀ q, q < sumLens d.str_bytes →
          buf3.getD (d.string_literal_data_offset + q) 0 = d.str_bytes.flatten.getD q 0 := by
        intro q hq
        by_cases hfl : d.str_bytes.flatten = []
        · exfalso
          have := length_flatten_eq_sumLens d.str_bytes
          rw [hfl] at this
          simp at this
          omega
        · rw [hbuf3, writeAll_of_start_le _ _ _ (hsdo_le2 hfl),
            getD_splice _ _ _ _ _ (hsdo_le2 hfl)]
          rw [length_flatten_eq_sumLens]
          rw [if_neg (by omega), if_pos (by omega)]
          congr 1
          omega
      have hbuf3_len : 0 < sumLens d.str_bytes →
          d.string_literal_data_offset + sumLens d.str_bytes ≤ buf3.length := by
        intro hq
        have hfl : d.str_bytes.flatten ≠ [] := by
          intro hfl
          have := length_flatten_eq_sumLens d.str_bytes
          rw [hfl] at this
          simp at this
          omega
        have hs2 := hsdo_le2 hfl
        rw [hbuf3, writeAll_of_start_le _ _ _ hs2]
        simp only [List.length_append, List.length_take, List.length_drop,
          length_flatten_eq_sumLens]
        omega
      have hbuf4_getD : ∀ p, buf4.getD p 0 =
          if p < 16 then buf3.getD p 0
          else if p < 24 then (encodeU32 d.string_literal_data_offset ++
            encodeU32 (sumLens d.str_bytes + pad)).getD (p - 16) 0
          else buf3.getD p 0 := by
        intro p
        rw [writeBytesAt_getD hwrt p, henc8]
      refine ⟨rfl, by omega, hsdo32, hT32, by omega, hbound1, ?_, ?_, ?_, ?_⟩
      · intro j hj
        rw [hbuf4_getD]
        rw [if_neg (by omega), if_pos (by omega)]
        congr 1
        omega
      · intro p hplen hphdr hpdesc hpdata
        have hchain : buf3.getD p 0 = d.file_data.getD p 0 := by
          rw [hbuf3_getD p (by omega), hbuf2_getD]
          rw [show (if p < ep then buf1.getD p 0 else if p < ep + pad then 0
              else buf1.getD p 0) = buf1.getD p 0 from by
            rcases hpdata with hh | hh
            · rw [if_pos (by omega)]
            · rw [if_neg (by omega), if_neg (by omega)]]
          exact hframe1 p hpdesc
        rcases hphdr with hh | hh
        · rw [hbuf4_getD, if_pos (by omega), hchain]
        · rw [hbuf4_getD, if_neg (by omega), if_neg (by omega), hchain]
      · intro k hk1 hk2
        have hpadpos : 0 < pad := by omega
        rw [hbuf4_getD]
        by_cases hq1 : d.string_literal_data_offset + k < 16
        · rw [if_pos hq1, hbuf3_getD _ (by omega), hbuf2_getD, if_neg (by omega),
            if_pos (by omega)]
        · by_cases hq2 : d.string_literal_data_offset + k < 24
          · rw [if_neg hq1, if_pos hq2]
            have hq : d.string_literal_data_offset + k = 17 ∨
                d.string_literal_data_offset + k = 18 ∨
                d.string_literal_data_offset + k = 19 ∨
                d.string_literal_data_offset + k = 21 ∨
                d.string_literal_data_offset + k = 22 ∨
                d.string_literal_data_offset + k = 23 := by
              omega
            have hsdo_small : d.string_literal_data_offset ≤ 23 := by omega
            have hT_small : sumLens d.str_bytes + pad ≤ 26 := by omega
            rcases hq with hq | hq | hq | hq | hq | hq <;>
              rw [hq] <;>
              simp only [encodeU32, List.cons_append, List.nil_append, List.getD_cons_zero,
                List.getD_cons_succ] <;>
              omega
          · rw [if_neg hq1, if_neg hq2, hbuf3_getD _ (by omega), hbuf2_getD,
              if_neg (by omega), if_pos (by omega)]
      · intro hTpos
        by_cases hpad0 : pad = 0
        · have hsum : 0 < sumLens d.str_bytes := by omega
          have := hbuf3_len hsum
          omega
        · have h2len : ep + pad ≤ buf2.length := by
            rw [hb2len, if_neg hpad0]
            omega
          omega

theorem map_getD_lt {α β : Type} (d0 : α) (e0 : β) (f : α → β) (l : List α) (i : Nat)
    (h : i < l.length) : (l.map f).getD i e0 = f (l.getD i d0) := by
  rw [List.getD_eq_getElem?_getD, List.getD_eq_getElem?_getD, List.getElem?_map,
    List.getElem?_eq_getElem h]
  simp

theorem save_layout_spec {d d2 : MetadataFile}
    (hlen : d.string_literals.length = d.str_bytes.length)
    (hdo_le : d.str_bytes.flatten ≠ [] →
      d.string_literal_data_offset ≤ d.file_data.length)
    (hslo : 24 ≤ d.string_literal_offset)
    (hsep : d.string_literal_offset + 8 * d.str_bytes.length ≤ d.string_literal_data_offset)
    (h : save d = some d2) :
    (∀ i, i < d.str_bytes.length → ∀ j, j < 8 →
      d2.file_data.getD (d.string_literal_offset + 8 * i + j) 0 =
        (encodeU32 (d.str_bytes.getD i []).length ++
          encodeU32 (sumLens (d.str_bytes.take i))).getD j 0) ∧
    (∀ q, q < sumLens d.str_bytes →
      d2.file_data.getD (d.string_literal_data_offset + q) 0 =
        d.str_bytes.flatten.getD q 0) ∧
    (0 < sumLens d.str_bytes →
      d.string_literal_data_offset + sumLens d.str_bytes ≤ d2.file_data.length) := by
  rw [save_eq] at h
  cases hw : writeDescs d.string_literals d.str_bytes d.string_literal_offset 0 d.file_data with
  | none => rw [hw] at h; exact Option.noConfusion h
  | some r =>
    obtain ⟨lits2, packed, buf1⟩ := r
    rw [hw, Option.some_bind] at h
    dsimp only at h
    obtain ⟨hl2, htot, hb1len, hbound1, hframe1, hdesc1, hval1⟩ :=
      writeDescs_some_spec _ _ _ _ _ _ _ _ hlen hw
    rw [Nat.zero_add] at htot
    subst htot
    subst hl2
    set pad := (4 - (d.string_literal_data_offset + sumLens d.str_bytes) % 4) % 4 with hpadeq
    set ep := d.string_literal_data_offset + sumLens d.str_bytes with hepeq
    set buf2 := padStage buf1 ep pad with hbuf2
    set buf3 := writeAllPayloads buf2 d.string_literal_data_offset d.str_bytes with hbuf3
    cases hp : pack2 buf3 16 d.string_literal_data_offset (sumLens d.str_bytes + pad) with
    | none => rw [hp] at h; exact Option.noConfusion h
    | some buf4 =>
      rw [hp, Option.some_bind] at h
      injection h with h2
      subst h2
      dsimp only
      obtain ⟨hsdo32, hT32, h16len, hwrt⟩ := pack2_eq_some hp
      have henc8 : (encodeU32 d.string_literal_data_offset ++
          encodeU32 (sumLens d.str_bytes + pad)).length = 8 := rfl
      have hb4len : buf4.length = buf3.length := writeBytesAt_length hwrt
      have hb12 : buf1.length ≤ buf2.length := by
        rw [hbuf2, padStage_length]
        split <;> omega
      have hb23 : buf2.length ≤ buf3.length := by
        rw [hbuf3]; exact writeAll_length_ge d.str_bytes buf2 d.string_literal_data_offset
      have hbuf2_getD : ∀ p, buf2.getD p 0 =
          if p < ep then buf1.getD p 0 else if p < ep + pad then 0 else buf1.getD p 0 := by
        intro p
        rw [hbuf2]
        exact padStage_getD buf1 ep pad p
      have hsdo_le2 : d.str_bytes.flatten ≠ [] →
          d.string_literal_data_offset ≤ buf2.length := by
        intro hne
        have := hdo_le hne
        omega
      refine ⟨?_, ?_, ?_⟩
      · intro i hi j hj
        have hplt : d.string_literal_offset + 8 * i + j < ep := by
          rw [hepeq]
          omega
        have hge24 : 24 ≤ d.string_literal_offset + 8 * i + j := by omega
        rw [writeBytesAt_getD hwrt, henc8, if_neg (by omega), if_neg (by omega)]
        have hb3 : buf3.getD (d.string_literal_offset + 8 * i + j) 0 =
            buf2.getD (d.string_literal_offset + 8 * i + j) 0 := by
          by_cases hfl : d.str_bytes.flatten = []
          · rw [hbuf3, writeAll_of_flatten_nil _ _ _ hfl]
          · rw [hbuf3, writeAll_of_start_le _ _ _ (hsdo_le2 hfl),
              getD_splice _ _ _ _ _ (hsdo_le2 hfl), if_pos (by omega)]
        rw [hb3, hbuf2_getD, if_pos hplt]
        have := hdesc1 i (by omega) j hj
        rw [Nat.zero_add] at this
        exact this
      · intro q hq
        have hge24 : 24 ≤ d.string_literal_data_offset + q := by omega
        have hfl : d.str_bytes.flatten ≠ [] := by
          intro hfl
          have := length_flatten_eq_sumLens d.str_bytes
          rw [hfl] at this
          simp at this
          omega
        rw [writeBytesAt_getD hwrt, henc8, if_neg (by omega), if_neg (by omega)]
        rw [hbuf3, writeAll_of_start_le _ _ _ (hsdo_le2 hfl),
          getD_splice _ _ _ _ _ (hsdo_le2 hfl), length_flatten_eq_sumLens,
          if_neg (by omega), if_pos (by omega)]
        congr 1
        omega
      · intro hq
        have hfl : d.str_bytes.flatten ≠ [] := by
          intro hfl
          have := length_flatten_eq_sumLens d.str_bytes
          rw [hfl] at this
          simp at this
          omega
        have hs2 := hsdo_le2 hfl
        have : d.string_literal_data_offset + sumLens d.str_bytes ≤ buf3.length := by
          rw [hbuf3, writeAll_of_start_le _ _ _ hs2]
          simp only [List.length_append, List.length_take, List.length_drop,
            length_flatten_eq_sumLens]
          omega
        omega

theorem parse_preconds {buf : List Nat} {d : MetadataFile} (h : parse buf = .ok d) :
    d.string_literals.length = d.str_bytes.length ∧
    d.string_literal_count = d.string_literals.length ∧
    (d.str_bytes.flatten ≠ [] →
      d.string_literal_data_offset ≤ d.file_data.length) := by
  obtain ⟨h24, hm, hfd, hsloeq, hcnteq, hsdoeq, hrd, hsb⟩ := parse_ok_spec h
  obtain ⟨hrl, _, _⟩ := readDescs_ok_spec _ _ _ _ _ hrd
  refine ⟨by rw [hsb, List.length_map], by rw [hcnteq, hrl], ?_⟩
  intro hne
  rw [List.flatten_ne_nil_iff] at hne
  obtain ⟨s, hs_mem, hs_ne⟩ := hne
  rw [hsb] at hs_mem
  obtain ⟨l, _, rfl⟩ := List.mem_map.1 hs_mem
  have := sliceClamp_ne_nil_lt hs_ne
  rw [hfd, hsdoeq]
  omega

theorem save_reload {buf : List Nat} {d d2 : MetadataFile}
    (hparse : parse buf = .ok d)
    (hslo24 : 24 ≤ d.string_literal_offset)
    (hsep : d.string_literal_offset + 8 * d.string_literal_count ≤
      d.string_literal_data_offset)
    (hsave : save d = some d2) :
    ∃ d3, parse d2.file_data = .ok d3 ∧
      d3.file_data = d2.file_data ∧
      d3.string_literal_offset = d.string_literal_offset ∧
      d3.string_literal_count = d.string_literal_count ∧
      d3.string_literal_data_offset = d.string_literal_data_offset ∧
      d3.string_literals = newDescs d.str_bytes 0 ∧
      d3.str_bytes = d.str_bytes := by
  obtain ⟨h24buf, hmagic, hfd, hsloeq, hcnteq, hsdoeq, hrd, hsb⟩ := parse_ok_spec hparse
  obtain ⟨hlen, hcnt_lits, hdo_le⟩ := parse_preconds hparse
  have hc : d.string_literal_count = d.str_bytes.length := by rw [hcnt_lits, hlen]
  have hsep2 : d.string_literal_offset + 8 * d.str_bytes.length ≤
      d.string_literal_data_offset := by omega
  obtain ⟨hstruct, hlenge, hsdo32, hT32, h24out, hdescbound, hheader, hframe,
    hpadzero, hdatabound⟩ := save_some_spec hlen hdo_le hsave
  obtain ⟨hdescbytes, hdatabytes, hdatalen⟩ := save_layout_spec hlen hdo_le hslo24 hsep2 hsave
  have hbuflen : d.file_data.length = buf.length := by rw [hfd]
  have hlow : ∀ p, p < 16 → d2.file_data.getD p 0 = buf.getD p 0 := by
    intro p hp
    have := hframe p (by omega) (Or.inl hp) (Or.inl (by omega)) (Or.inl (by omega))
    rwa [hfd] at this
  have hmagic2 : readU32v d2.file_data 0 = MAGIC := by
    have hm2 := @readU32v_congr d2.file_data buf 0 0 (fun j hj => hlow (0 + j) (by omega))
    rw [hm2]
    exact hmagic
  have h8 : readU32v d2.file_data 8 = d.string_literal_offset := by
    have hm2 := @readU32v_congr d2.file_data buf 8 8 (fun j hj => hlow (8 + j) (by omega))
    rw [hm2, ← hsloeq]
  have h12 : readU32v d2.file_data 12 = readU32v buf 12 :=
    @readU32v_congr d2.file_data buf 12 12 (fun j hj => hlow (12 + j) (by omega))
  have h16v : readU32v d2.file_data 16 = d.string_literal_data_offset := by
    apply readU32v_encode hsdo32
    intro j hj
    rw [hheader j (by omega)]
    exact getD_append_left (by rw [length_encodeU32]; omega)
  have hcnt2 : readU32v d2.file_data 12 / 8 = d.string_literal_count := by
    rw [h12, ← hcnteq]
  have hlam32 : ∀ i, i < d.str_bytes.length →
      (d.str_bytes.getD i []).length < 2 ^ 32 ∧ sumLens (d.str_bytes.take i) < 2 ^ 32 := by
    intro i hi
    have := sumLens_take_le d.str_bytes i hi
    omega
  have hrd3 : ∃ lits3, readDescs d2.file_data (readU32v d2.file_data 8)
      (readU32v d2.file_data 12 / 8) 0 = .ok lits3 := by
    apply readDescs_isOk
    by_cases hnil : d.str_bytes = []
    · right
      rw [hcnt2, hc, hnil]
      rfl
    · left
      have hb := hdescbound hnil
      rw [h8, hcnt2]
      omega
  obtain ⟨lits3, hrd3⟩ := hrd3
  obtain ⟨hl3len, hl3bounds, hl3get⟩ := readDescs_ok_spec _ _ _ _ _ hrd3
  have hl3 : lits3 = newDescs d.str_bytes 0 := by
    apply eq_of_getD_gen default
    · rw [hl3len, newDescs_length, hcnt2, hc]
    · intro i hi
      have hi2 : i < d.str_bytes.length := by
        rw [hl3len, hcnt2] at hi
        omega
      rw [hl3get i (by rwa [hl3len] at hi), newDescs_getD _ _ _ hi2]
      have hread1 : readU32v d2.file_data (readU32v d2.file_data 8 + (0 + i) * 8) =
          (d.str_bytes.getD i []).length := by
        apply readU32v_encode (hlam32 i hi2).1
        intro j hj
        have hidx : readU32v d2.file_data 8 + (0 + i) * 8 + j =
            d.string_literal_offset + 8 * i + j := by
          rw [h8]
          omega
        rw [hidx, hdescbytes i hi2 j (by omega)]
        exact getD_append_left (by rw [length_encodeU32]; omega)
      have hread2 : readU32v d2.file_data (readU32v d2.file_data 8 + (0 + i) * 8 + 4) =
          sumLens (d.str_bytes.take i) := by
        apply readU32v_encode (hlam32 i hi2).2
        intro j hj
        have hidx : readU32v d2.file_data 8 + (0 + i) * 8 + 4 + j =
            d.string_literal_offset + 8 * i + (4 + j) := by
          rw [h8]
          omega
        rw [hidx, hdescbytes i hi2 (4 + j) (by omega)]
        have h4 : (4 : Nat) + j = (encodeU32 (d.str_bytes.getD i []).length).length + j := by
          rw [length_encodeU32]
        rw [h4, getD_append_right]
      rw [hread1, hread2]
      congr 1
      omega
  have hsb3 : (lits3.map fun l => sliceClamp d2.file_data
      (readU32v d2.file_data 16 + l.offset)
      (readU32v d2.file_data 16 + l.offset + l.length)) = d.str_bytes := by
    apply eq_of_getD_gen []
    · rw [List.length_map, hl3len, hcnt2, hc]
    · intro i hi
      rw [List.length_map, hl3len, hcnt2, hc] at hi
      rw [map_getD_lt default [] _ _ i (by rw [hl3len, hcnt2, hc]; omega)]
      rw [hl3, newDescs_getD _ _ _ hi]
      dsimp only
      rw [h16v, Nat.zero_add]
      by_cases hlam : (d.str_bytes.getD i []).length = 0
      · rw [List.length_eq_zero.mp hlam]
        apply sliceClamp_nil
        simp
      · have hsum_pos : 0 < sumLens d.str_bytes := by
          have := sumLens_take_le d.str_bytes i hi
          omega
        have hbd := hdatalen hsum_pos
        have htk := sumLens_take_le d.str_bytes i hi
        apply sliceClamp_eq_of_getD (by omega)
        intro q hq
        have hidx : d.string_literal_data_offset + sumLens (d.str_bytes.take i) + q =
            d.string_literal_data_offset + (sumLens (d.str_bytes.take i) + q) := by
          omega
        rw [hidx, hdatabytes (sumLens (d.str_bytes.take i) + q) (by omega),
          flatten_getD_segment d.str_bytes i q hi hq]
  rw [parse_unfold]
  rw [if_pos (by omega), if_pos hmagic2, if_pos (by omega), if_pos (by omega),
    if_pos (by omega), if_pos (by omega), if_pos (by omega), hrd3, exc_ok_bind]
  exact ⟨_, rfl, rfl, h8, hcnt2, h16v, hl3, hsb3⟩

theorem save_id_of_bytes {e : MetadataFile}
    (hlits : e.string_literals.length = e.str_bytes.length)
    (h24 : 24 ≤ e.file_data.length)
    (hdescbound : e.str_bytes ≠ [] →
      e.string_literal_offset + 8 * e.str_bytes.length ≤ e.file_data.length)
    (hsdo32 : e.string_literal_data_offset < 2 ^ 32)
    (hT32 : sumLens e.str_bytes +
      padFor e.string_literal_data_offset (sumLens e.str_bytes) < 2 ^ 32)
    (hdesc : ∀ i, i < e.str_bytes.length → ∀ j, j < 8 →
      e.file_data.getD (e.string_literal_offset + 8 * i + j) 0 =
        (encodeU32 (e.str_bytes.getD i []).length ++
          encodeU32 (sumLens (e.str_bytes.take i))).getD j 0)
    (hdata : ∀ q, q < sumLens e.str_bytes →
      e.file_data.getD (e.string_literal_data_offset + q) 0 =
        e.str_bytes.flatten.getD q 0)
    (hpadzero : ∀ k, sumLens e.str_bytes ≤ k →
      k < sumLens e.str_bytes + padFor e.string_literal_data_offset (sumLens e.str_bytes) →
      e.file_data.getD (e.string_literal_data_offset + k) 0 = 0)
    (hheader : ∀ j, j < 8 → e.file_data.getD (16 + j) 0 =
      (encodeU32 e.string_literal_data_offset ++
        encodeU32 (sumLens e.str_bytes +
          padFor e.string_literal_data_offset (sumLens e.str_bytes))).getD j 0)
    (hdatabound : 0 < sumLens e.str_bytes +
        padFor e.string_literal_data_offset (sumLens e.str_bytes) →
      e.string_literal_data_offset + sumLens e.str_bytes +
        padFor e.string_literal_data_offset (sumLens e.str_bytes) ≤ e.file_data.length) :
    save e = some { e with string_literals := newDescs e.str_bytes 0 } := by
  simp only [padFor] at hT32 hpadzero hheader hdatabound
  have hw : writeDescs e.string_literals e.str_bytes e.string_literal_offset 0 e.file_data
      = some (newDescs e.str_bytes 0, sumLens e.str_bytes, e.file_data) := by
    by_cases hnil : e.str_bytes = []
    · have hlitsnil : e.string_literals = [] := by
        rw [hnil] at hlits
        exact List.length_eq_zero.mp hlits
      rw [hlitsnil, hnil]
      rfl
    · obtain ⟨⟨lits2, packed, out1⟩, hw0⟩ := writeDescs_isSome e.string_literals e.str_bytes
        e.string_literal_offset 0 e.file_data hlits (hdescbound hnil) (by omega)
      obtain ⟨hl2, htot, hlenout, hbound2, hframe2, hdesc2, hval2⟩ :=
        writeDescs_some_spec _ _ _ _ _ _ _ _ hlits hw0
      rw [Nat.zero_add] at htot
      subst hl2
      subst htot
      have hout1 : out1 = e.file_data := by
        apply eq_of_getD_gen 0 hlenout
        intro p hp
        by_cases hreg : e.string_literal_offset ≤ p ∧
            p < e.string_literal_offset + 8 * e.str_bytes.length
        · obtain ⟨hr1, hr2⟩ := hreg
          obtain ⟨i, j, hi, hj, rfl⟩ :
              ∃ i j, i < e.str_bytes.length ∧ j < 8 ∧
                p = e.string_literal_offset + 8 * i + j :=
            ⟨(p - e.string_literal_offset) / 8, (p - e.string_literal_offset) % 8,
              by omega, by omega, by omega⟩
          rw [hdesc2 i hi j hj, Nat.zero_add, hdesc i hi j hj]
        · apply hframe2
          omega
      rw [hout1] at hw0
      exact hw0
  have hps : padStage e.file_data
      (e.string_literal_data_offset + sumLens e.str_bytes)
      ((4 - (e.string_literal_data_offset + sumLens e.str_bytes) % 4) % 4)
      = e.file_data := by
    by_cases hpad0 : (4 - (e.string_literal_data_offset + sumLens e.str_bytes) % 4) % 4 = 0
    · simp [padStage, hpad0]
    · have hbd : e.string_literal_data_offset + sumLens e.str_bytes +
          (4 - (e.string_literal_data_offset + sumLens e.str_bytes) % 4) % 4 ≤
          e.file_data.length := by
        have := hdatabound (by omega)
        omega
      rw [padStage_eq _ _ _ hpad0]
      have hext : extendTo e.file_data
          (e.string_literal_data_offset + sumLens e.str_bytes +
            (4 - (e.string_literal_data_offset + sumLens e.str_bytes) % 4) % 4)
          = e.file_data := by
        unfold extendTo
        rw [if_neg (by omega)]
      rw [hext]
      have hw2 := @write_id e.file_data
        (List.replicate ((4 - (e.string_literal_data_offset + sumLens e.str_bytes) % 4) % 4) 0)
        (e.string_literal_data_offset + sumLens e.str_bytes)
        (by rw [List.length_replicate]; omega)
        (fun q hq => by
          rw [List.length_replicate] at hq
          have hz := hpadzero (sumLens e.str_bytes + q) (by omega) (by omega)
          rw [show e.string_literal_data_offset + sumLens e.str_bytes + q =
            e.string_literal_data_offset + (sumLens e.str_bytes + q) from by omega, hz]
          rw [List.getD_eq_getElem?_getD, List.getElem?_replicate, if_pos hq]
          rfl)
      rw [List.length_replicate] at hw2
      exact hw2
  have hwa : writeAllPayloads e.file_data e.string_literal_data_offset e.str_bytes
      = e.file_data := by
    by_cases hfl : e.str_bytes.flatten = []
    · exact writeAll_of_flatten_nil _ _ _ hfl
    · have hsum_pos : 0 < sumLens e.str_bytes := by
        rw [← length_flatten_eq_sumLens]
        rcases Nat.eq_zero_or_pos e.str_bytes.flatten.length with h0 | h0
        · exact absurd (List.length_eq_zero.mp h0) hfl
        · exact h0
      have hsdole : e.string_literal_data_offset ≤ e.file_data.length := by
        have := hdatabound (by omega)
        omega
      rw [writeAll_of_start_le _ _ _ hsdole]
      have hw2 := @write_id e.file_data e.str_bytes.flatten e.string_literal_data_offset
        (by rw [length_flatten_eq_sumLens]; have := hdatabound (by omega); omega)
        (fun q hq => by
          rw [hdata q (by rwa [length_flatten_eq_sumLens] at hq)])
      rw [length_flatten_eq_sumLens] at hw2
      exact hw2
  have hpk : pack2 e.file_data 16 e.string_literal_data_offset
      (sumLens e.str_bytes +
        (4 - (e.string_literal_data_offset + sumLens e.str_bytes) % 4) % 4)
      = some e.file_data := by
    have henc8 : (encodeU32 e.string_literal_data_offset ++
        encodeU32 (sumLens e.str_bytes +
          (4 - (e.string_literal_data_offset + sumLens e.str_bytes) % 4) % 4)).length = 8 := rfl
    unfold pack2
    rw [if_pos ⟨hsdo32, by omega⟩]
    rw [writeBytesAt_isSome (by rw [henc8]; omega)]
    congr 1
    have hw2 := @write_id e.file_data
      (encodeU32 e.string_literal_data_offset ++
        encodeU32 (sumLens e.str_bytes +
          (4 - (e.string_literal_data_offset + sumLens e.str_bytes) % 4) % 4)) 16
      (by rw [henc8]; omega)
      (fun q hq => hheader q (by rw [henc8] at hq; exact hq))
    rw [henc8] at hw2
    exact hw2
  rw [save_eq, hw, Option.some_bind]
  dsimp only
  rw [hps, hwa, hpk, Option.some_bind]

/-! ## UTF-8 round-trip lemmas -/

theorem char_valid_nat (c : Char) :
    c.toNat < 0xD800 ∨ (0xE000 ≤ c.toNat ∧ c.toNat < 0x110000) := c.valid

theorem isCont_true {b : Nat} (h1 : 0x80 ≤ b) (h2 : b ≤ 0xBF) : isCont b = true := by
  simp [isCont]
  omega

theorem decode_ascii (b : Nat) (hb : b < 0x80) (rest : List Nat) :
    utf8DecodeIgnore (b :: rest) = Char.ofNat b :: utf8DecodeIgnore rest := by
  rw [utf8DecodeIgnore.eq_def]
  dsimp only
  rw [if_pos hb]

theorem decode_two (b0 b1 : Nat) (h0 : 0xC2 ≤ b0) (h0' : b0 < 0xE0)
    (h1 : isCont b1 = true) (rest : List Nat) :
    utf8DecodeIgnore (b0 :: b1 :: rest) =
      Char.ofNat ((b0 - 0xC0) * 0x40 + (b1 - 0x80)) :: utf8DecodeIgnore rest := by
  rw [utf8DecodeIgnore.eq_def]
  dsimp only
  rw [if_neg (by omega), if_neg (by omega), if_pos h0', if_pos h1]

theorem decode_three (b0 b1 b2 : Nat) (h0 : 0xE0 ≤ b0) (h0' : b0 < 0xF0)
    (h1 : cont2ok b0 b1 = true) (h2 : isCont b2 = true) (rest : List Nat) :
    utf8DecodeIgnore (b0 :: b1 :: b2 :: rest) =
      Char.ofNat ((b0 - 0xE0) * 0x1000 + (b1 - 0x80) * 0x40 + (b2 - 0x80)) ::
        utf8DecodeIgnore rest := by
  rw [utf8DecodeIgnore.eq_def]
  dsimp only
  rw [if_neg (by omega), if_neg (by omega), if_neg (by omega), if_pos h0', if_pos h1,
    if_pos h2]

theorem decode_four (b0 b1 b2 b3 : Nat) (h0 : 0xF0 ≤ b0) (h0' : b0 < 0xF5)
    (h1 : cont3ok b0 b1 = true) (h2 : isCont b2 = true) (h3 : isCont b3 = true)
    (rest : List Nat) :
    utf8DecodeIgnore (b0 :: b1 :: b2 :: b3 :: rest) =
      Char.ofNat ((b0 - 0xF0) * 0x40000 + (b1 - 0x80) * 0x1000 + (b2 - 0x80) * 0x40 +
        (b3 - 0x80)) :: utf8DecodeIgnore rest := by
  rw [utf8DecodeIgnore.eq_def]
  dsimp only
  rw [if_neg (by omega), if_neg (by omega), if_neg (by omega), if_neg (by omega),
    if_pos h0', if_pos h1, if_pos h2, if_pos h3]

theorem decode_encode_char (c : Char) (rest : List Nat) :
    utf8DecodeIgnore (utf8EncodeChar c ++ rest) = c :: utf8DecodeIgnore rest := by
  have hv := char_valid_nat c
  unfold utf8EncodeChar
  by_cases h1 : c.toNat < 0x80
  · rw [if_pos h1]
    show utf8DecodeIgnore (c.toNat :: rest) = _
    rw [decode_ascii _ h1, Char.ofNat_toNat]
  · rw [if_neg h1]
    by_cases h2 : c.toNat < 0x800
    · rw [if_pos h2]
      show utf8DecodeIgnore (_ :: _ :: rest) = _
      rw [decode_two _ _ (by omega) (by omega) (isCont_true (by omega) (by omega)) rest]
      rw [show (0xC0 + c.toNat / 0x40 - 0xC0) * 0x40 + (0x80 + c.toNat % 0x40 - 0x80) =
        c.toNat from by omega, Char.ofNat_toNat]
    · rw [if_neg h2]
      by_cases h3 : c.toNat < 0x10000
      · rw [if_pos h3]
        show utf8DecodeIgnore (_ :: _ :: _ :: rest) = _
        have hc2 : cont2ok (0xE0 + c.toNat / 0x1000) (0x80 + c.toNat / 0x40 % 0x40)
            = true := by
          unfold cont2ok
          split
          · next heq =>
            have : c.toNat < 0x1000 := by omega
            simp only [Bool.and_eq_true, decide_eq_true_eq]
            omega
          · split
            · next hne heq =>
              have : c.toNat / 0x1000 = 13 := by omega
              simp only [Bool.and_eq_true, decide_eq_true_eq]
              omega
            · exact isCont_true (by omega) (by omega)
        rw [decode_three _ _ _ (by omega) (by omega) hc2
          (isCont_true (by omega) (by omega)) rest]
        rw [show (0xE0 + c.toNat / 0x1000 - 0xE0) * 0x1000 +
          (0x80 + c.toNat / 0x40 % 0x40 - 0x80) * 0x40 + (0x80 + c.toNat % 0x40 - 0x80) =
          c.toNat from by omega, Char.ofNat_toNat]
      · rw [if_neg h3]
        show utf8DecodeIgnore (_ :: _ :: _ :: _ :: rest) = _
        have hc3 : cont3ok (0xF0 + c.toNat / 0x40000) (0x80 + c.toNat / 0x1000 % 0x40)
            = true := by
          unfold cont3ok
          split
          · next heq =>
            have : c.toNat < 0x40000 := by omega
            simp only [Bool.and_eq_true, decide_eq_true_eq]
            omega
          · split
            · next hne heq =>
              have : c.toNat / 0x40000 = 4 := by omega
              simp only [Bool.and_eq_true, decide_eq_true_eq]
              omega
            · exact isCont_true (by omega) (by omega)
        rw [decode_four _ _ _ _ (by omega) (by omega) hc3
          (isCont_true (by omega) (by omega)) (isCont_true (by omega) (by omega)) rest]
        rw [show (0xF0 + c.toNat / 0x40000 - 0xF0) * 0x40000 +
          (0x80 + c.toNat / 0x1000 % 0x40 - 0x80) * 0x1000 +
          (0x80 + c.toNat / 0x40 % 0x40 - 0x80) * 0x40 + (0x80 + c.toNat % 0x40 - 0x80) =
          c.toNat from by omega, Char.ofNat_toNat]

theorem decode_encode (cs : List Char) : utf8DecodeIgnore (utf8Encode cs) = cs := by
  induction cs with
  | nil => rfl
  | cons c cs ih =>
    show utf8DecodeIgnore (utf8EncodeChar c ++ utf8Encode cs) = _
    rw [decode_encode_char, ih]

theorem encode_append (cs ds : List Char) :
    utf8Encode (cs ++ ds) = utf8Encode cs ++ utf8Encode ds := by
  induction cs with
  | nil => rfl
  | cons c cs ih =>
    show utf8EncodeChar c ++ utf8Encode (cs ++ ds) = (utf8EncodeChar c ++ utf8Encode cs) ++ _
    rw [ih, List.append_assoc]

theorem encodeChar_rev (c : Char) (hc : c ≠ Char.ofNat 0) :
    ∃ y ys, (utf8EncodeChar c).reverse = y :: ys ∧ y ≠ 0 := by
  have hn : c.toNat ≠ 0 := by
    intro h0
    apply hc
    rw [← Char.ofNat_toNat c, h0]
  unfold utf8EncodeChar
  dsimp only
  split_ifs with h1 h2 h3
  · exact ⟨c.toNat, [], by simp, hn⟩
  · exact ⟨0x80 + c.toNat % 0x40, [0xC0 + c.toNat / 0x40], by simp, by omega⟩
  · exact ⟨0x80 + c.toNat % 0x40,
      [0x80 + c.toNat / 0x40 % 0x40, 0xE0 + c.toNat / 0x1000], by simp, by omega⟩
  · exact ⟨0x80 + c.toNat % 0x40,
      [0x80 + c.toNat / 0x40 % 0x40, 0x80 + c.toNat / 0x1000 % 0x40,
        0xF0 + c.toNat / 0x40000], by simp, by omega⟩

theorem rstripNull_append_zero (l : List Nat) : rstripNull (l ++ [0]) = rstripNull l := by
  unfold rstripNull
  rw [List.reverse_append]
  rfl

theorem rstripNull_append_last_ne (l m : List Nat) (y : Nat) (ys : List Nat)
    (hm : m.reverse = y :: ys) (hy : y ≠ 0) : rstripNull (l ++ m) = l ++ m := by
  unfold rstripNull
  rw [List.reverse_append, hm, List.cons_append,
    List.dropWhile_cons_of_neg (by simpa using hy), ← List.cons_append, ← hm,
    ← List.reverse_append, List.reverse_reverse]

theorem stripNullChars_append_zero (cs : List Char) :
    stripNullChars (cs ++ [Char.ofNat 0]) = stripNullChars cs := by
  unfold stripNullChars
  rw [List.reverse_append]
  show ((Char.ofNat 0 :: cs.reverse).dropWhile fun c => c = Char.ofNat 0).reverse = _
  rw [List.dropWhile_cons_of_pos (by simp)]

theorem stripNullChars_append_ne (cs : List Char) (c : Char) (hc : c ≠ Char.ofNat 0) :
    stripNullChars (cs ++ [c]) = cs ++ [c] := by
  unfold stripNullChars
  rw [List.reverse_append]
  show ((c :: cs.reverse).dropWhile fun x => x = Char.ofNat 0).reverse = _
  rw [List.dropWhile_cons_of_neg (by simpa using hc)]
  rw [show (c :: cs.reverse) = ([c] : List Char).reverse ++ cs.reverse from by simp,
    ← List.reverse_append, List.reverse_reverse]

theorem rstrip_encode (cs : List Char) :
    rstripNull (utf8Encode cs) = utf8Encode (stripNullChars cs) := by
  induction cs using List.reverseRecOn with
  | nil => rfl
  | append_singleton cs c ih =>
    rw [encode_append]
    by_cases hc : c = Char.ofNat 0
    · subst hc
      have he : utf8Encode [Char.ofNat 0] = [0] := rfl
      rw [he, rstripNull_append_zero, ih, stripNullChars_append_zero]
    · obtain ⟨y, ys, hrev, hy⟩ := encodeChar_rev c hc
      have hm : utf8Encode [c] = utf8EncodeChar c := by
        show utf8EncodeChar c ++ [] = _
        simp
      rw [hm, rstripNull_append_last_ne _ _ y ys hrev hy,
        stripNullChars_append_ne _ _ hc, encode_append, hm]

theorem decode_text_encoded (cs : List Char) :
    decode_text (utf8Encode cs) = stripNullChars cs := by
  unfold decode_text
  rw [rstrip_encode, decode_encode]

theorem decode_text_spec_encoded (cs : List Char) :
    decode_text_spec (utf8Encode cs) = stripNullChars cs := by
  unfold decode_text_spec
  rw [decode_encode]

/-! ## Facts shared by several claims -/

theorem sumLens_take_succ (strs : List (List Nat)) :
    ∀ i, i < strs.length →
    sumLens (strs.take (i + 1)) = sumLens (strs.take i) + (strs.getD i []).length := by
  induction strs with
  | nil => intro i hi; simp at hi
  | cons s ss ih =>
    intro i hi
    cases i with
    | zero => simp [sumLens_cons, sumLens_nil]
    | succ i =>
      have := ih i (by simpa using hi)
      simp only [List.take_succ_cons, sumLens_cons, List.getD_cons_succ]
      omega

theorem sumLens_take_mono (strs : List (List Nat)) :
    ∀ i j, i ≤ j → sumLens (strs.take i) ≤ sumLens (strs.take j) := by
  induction strs with
  | nil => intro i j _; simp
  | cons s ss ih =>
    intro i j hij
    cases i with
    | zero => simp [sumLens]
    | succ i =>
      cases j with
      | zero => omega
      | succ j =>
        have := ih i j (by omega)
        simp only [List.take_succ_cons, sumLens_cons]
        omega

theorem getD_drop_take {α : Type} (d0 : α) (l : List α) (s e i : Nat) (h : s + i < e) :
    ((l.take e).drop s).getD i d0 = l.getD (s + i) d0 := by
  rw [List.getD_eq_getElem?_getD, List.getD_eq_getElem?_getD, List.getElem?_drop,
    List.getElem?_take_of_lt (by omega)]

theorem saved_header_reads {buf : List Nat} {d d2 : MetadataFile}
    (hparse : parse buf = .ok d) (hsave : save d = some d2) :
    readU32v d2.file_data 16 = d.string_literal_data_offset ∧
    readU32v d2.file_data 20 =
      sumLens d.str_bytes + padFor d.string_literal_data_offset (sumLens d.str_bytes) := by
  obtain ⟨hlen, hcnt_lits, hdo_le⟩ := parse_preconds hparse
  obtain ⟨hstruct, hlenge, hsdo32, hT32, h24out, hdescbound, hheader, hframe, hpadzero,
    hdatabound⟩ := save_some_spec hlen hdo_le hsave
  constructor
  · apply readU32v_encode hsdo32
    intro j hj
    rw [hheader j (by omega)]
    exact getD_append_left (by rw [length_encodeU32]; omega)
  · apply readU32v_encode hT32
    intro j hj
    have hidx : 20 + j = 16 + (4 + j) := by omega
    rw [hidx, hheader (4 + j) (by omega)]
    have h4 : (4 : Nat) + j = (encodeU32 d.string_literal_data_offset).length + j := by
      rw [length_encodeU32]
    rw [h4, getD_append_right]

/-! ## Claim theorems -/

/-- C1: after `save` on a loaded Document, descriptor `i` written into the
descriptor table carries `relative_offset` equal to the sum of the byte
lengths of payloads `0..i-1` and `length` equal to the byte length of
`payloads[i]`; the header pair at offset 16 is overwritten with
`(string_data_offset, packed_size including padding)`; and the repacked
payload spans are pairwise non-overlapping. -/
theorem C1_descriptor_table {buf : List Nat} {d d2 : MetadataFile}
    (hparse : parse buf = .ok d) (hsave : save d = some d2) :
    d2.string_literals.length = d.str_bytes.length ∧
    (∀ i, i < d2.string_literals.length →
      (d2.string_literals.getD i default).length = (d.str_bytes.getD i []).length ∧
      (d2.string_literals.getD i default).offset = sumLens (d.str_bytes.take i)) ∧
    readU32v d2.file_data 16 = d.string_literal_data_offset ∧
    readU32v d2.file_data 20 =
      sumLens d.str_bytes + padFor d.string_literal_data_offset (sumLens d.str_bytes) ∧
    (∀ i j, i < j → j < d2.string_literals.length →
      (d2.string_literals.getD i default).offset +
          (d2.string_literals.getD i default).length ≤
        (d2.string_literals.getD j default).offset) := by
  obtain ⟨hlen, hcnt_lits, hdo_le⟩ := parse_preconds hparse
  obtain ⟨hstruct, hlenge, hsdo32, hT32, h24out, hdescbound, hheader, hframe, hpadzero,
    hdatabound⟩ := save_some_spec hlen hdo_le hsave
  have hlits2 : d2.string_literals = newDescs d.str_bytes 0 := by
    rw [hstruct]
  have hlen2 : d2.string_literals.length = d.str_bytes.length := by
    rw [hlits2, newDescs_length]
  obtain ⟨h16, h20⟩ := saved_header_reads hparse hsave
  refine ⟨hlen2, ?_, h16, h20, ?_⟩
  · intro i hi
    rw [hlen2] at hi
    rw [hlits2, newDescs_getD _ _ _ hi]
    dsimp only
    exact ⟨rfl, by omega⟩
  · intro i j hij hj
    rw [hlen2] at hj
    rw [hlits2, newDescs_getD _ _ _ (by omega), newDescs_getD _ _ _ hj]
    dsimp only
    have h1 := sumLens_take_succ d.str_bytes i (by omega)
    have h2 := sumLens_take_mono d.str_bytes (i + 1) j (by omega)
    omega

/-- C1 witness: the concrete one-string file `exBuf`. -/
theorem C1_witness :
    exD2.string_literals.length = exD.str_bytes.length ∧
    (∀ i, i < exD2.string_literals.length →
      (exD2.string_literals.getD i default).length = (exD.str_bytes.getD i []).length ∧
      (exD2.string_literals.getD i default).offset = sumLens (exD.str_bytes.take i)) ∧
    readU32v exD2.file_data 16 = exD.string_literal_data_offset ∧
    readU32v exD2.file_data 20 =
      sumLens exD.str_bytes + padFor exD.string_literal_data_offset (sumLens exD.str_bytes) ∧
    (∀ i j, i < j → j < exD2.string_literals.length →
      (exD2.string_literals.getD i default).offset +
          (exD2.string_literals.getD i default).length ≤
        (exD2.string_literals.getD j default).offset) :=
  @C1_descriptor_table exBuf exD exD2 (by decide) (by decide)

/-- C7: after `save`, `(string_data_offset + string_data_total_size) % 4 = 0`
where `string_data_total_size` is the value written back at offset 20; that
value is the packed size plus the padding `(4 - (sdo + packed) % 4) % 4`,
and the padding bytes, right after the packed string data, are zero in the
output buffer. -/
theorem C7_alignment {buf : List Nat} {d d2 : MetadataFile}
    (hparse : parse buf = .ok d) (hsave : save d = some d2) :
    readU32v d2.file_data 20 =
      sumLens d.str_bytes +
        ((4 - (d.string_literal_data_offset + sumLens d.str_bytes) % 4) % 4) ∧
    (d.string_literal_data_offset + readU32v d2.file_data 20) % 4 = 0 ∧
    (∀ k, sumLens d.str_bytes ≤ k → k < readU32v d2.file_data 20 →
      d2.file_data.getD (d.string_literal_data_offset + k) 0 = 0) := by
  obtain ⟨hlen, hcnt_lits, hdo_le⟩ := parse_preconds hparse
  obtain ⟨hstruct, hlenge, hsdo32, hT32, h24out, hdescbound, hheader, hframe, hpadzero,
    hdatabound⟩ := save_some_spec hlen hdo_le hsave
  obtain ⟨h16, h20⟩ := saved_header_reads hparse hsave
  rw [h20]
  simp only [padFor] at hpadzero ⊢
  refine ⟨trivial, by omega, ?_⟩
  intro k hk1 hk2
  exact hpadzero k hk1 hk2

/-- C7 witness: the concrete one-string file `exBuf`. -/
theorem C7_witness :
    readU32v exD2.file_data 20 =
      sumLens exD.str_bytes +
        ((4 - (exD.string_literal_data_offset + sumLens exD.str_bytes) % 4) % 4) ∧
    (exD.string_literal_data_offset + readU32v exD2.file_data 20) % 4 = 0 ∧
    (∀ k, sumLens exD.str_bytes ≤ k → k < readU32v exD2.file_data 20 →
      exD2.file_data.getD (exD.string_literal_data_offset + k) 0 = 0) :=
  @C7_alignment exBuf exD exD2 (by decide) (by decide)

/-- C8: `save` leaves every byte of the buffer outside the descriptor table
region, the new string-data region (packed size including padding), and the
header pair at `[16, 24)` unchanged, and never truncates the buffer. -/
theorem C8_frame {buf : List Nat} {d d2 : MetadataFile}
    (hparse : parse buf = .ok d) (hsave : save d = some d2) :
    buf.length ≤ d2.file_data.length ∧
    (∀ p, p < buf.length →
      ¬(d.string_literal_offset ≤ p ∧
        p < d.string_literal_offset + 8 * d.string_literal_count) →
      ¬(d.string_literal_data_offset ≤ p ∧
        p < d.string_literal_data_offset + sumLens d.str_bytes +
          padFor d.string_literal_data_offset (sumLens d.str_bytes)) →
      ¬(16 ≤ p ∧ p < 24) →
      d2.file_data.getD p 0 = buf.getD p 0) := by
  obtain ⟨hlen, hcnt_lits, hdo_le⟩ := parse_preconds hparse
  obtain ⟨h24buf, hm, hfd, _, _, _, _, _⟩ := parse_ok_spec hparse
  obtain ⟨hstruct, hlenge, hsdo32, hT32, h24out, hdescbound, hheader, hframe, hpadzero,
    hdatabound⟩ := save_some_spec hlen hdo_le hsave
  have hc : d.string_literal_count = d.str_bytes.length := by rw [hcnt_lits, hlen]
  rw [hfd] at hlenge
  refine ⟨hlenge, ?_⟩
  intro p hp hdesc hdata hhdr
  have := hframe p (by rw [hfd]; omega) (by omega) (by omega) (by omega)
  rwa [hfd] at this

/-- C8 witness: the concrete one-string file `exBuf`. -/
theorem C8_witness :
    exBuf.length ≤ exD2.file_data.length ∧
    (∀ p, p < exBuf.length →
      ¬(exD.string_literal_offset ≤ p ∧
        p < exD.string_literal_offset + 8 * exD.string_literal_count) →
      ¬(exD.string_literal_data_offset ≤ p ∧
        p < exD.string_literal_data_offset + sumLens exD.str_bytes +
          padFor exD.string_literal_data_offset (sumLens exD.str_bytes)) →
      ¬(16 ≤ p ∧ p < 24) →
      exD2.file_data.getD p 0 = exBuf.getD p 0) :=
  @C8_frame exBuf exD exD2 (by decide) (by decide)

/-- C2 counterexample: `badBuf` parses successfully (its descriptor table
overlaps the header at offset 0), `save` succeeds, but saving zeroes the
magic bytes, so reloading the serialized bytes fails: `load(serialize(D))`
does not succeed for every loaded Document. -/
theorem C2_counterexample :
    parse badBuf = .ok badD ∧ save badD = some badD2 ∧
    (parse badD2.file_data).isOk = false := by decide

/-- C2 (amended): the round-trip holds for every loaded Document whose
descriptor table starts at or after the 24-byte header and ends at or
before `string_data_offset` (so the three rewritten regions cannot clobber
the header or each other): reloading the saved bytes succeeds and yields
the same payloads, hence the same `decode_text` results, as the original
Document. -/
theorem C2_roundtrip_amended {buf : List Nat} {d d2 : MetadataFile}
    (hparse : parse buf = .ok d)
    (hslo : 24 ≤ d.string_literal_offset)
    (hsep : d.string_literal_offset + 8 * d.string_literal_count ≤
      d.string_literal_data_offset)
    (hsave : save d = some d2) :
    ∃ d3, parse d2.file_data = .ok d3 ∧ d3.str_bytes = d.str_bytes ∧
      get_strings d3 = get_strings d := by
  obtain ⟨d3, hp3, _, _, _, _, _, hsb⟩ := save_reload hparse hslo hsep hsave
  refine ⟨d3, hp3, hsb, ?_⟩
  unfold get_strings
  rw [hsb]

/-- C2 witness: the concrete one-string file `exBuf`. -/
theorem C2_witness :
    ∃ d3, parse exD2.file_data = .ok d3 ∧ d3.str_bytes = exD.str_bytes ∧
      get_strings d3 = get_strings exD :=
  @C2_roundtrip_amended exBuf exD exD2 (by decide) (by decide) (by decide) (by decide)

/-- C6 counterexample: for the loaded Document of `badBuf`, `serialize`
succeeds but its output cannot be loaded at all (the magic was overwritten),
so the pipeline serialize-load-serialize of the claim is not even defined,
let alone byte-identical. -/
theorem C6_counterexample :
    parse badBuf = .ok badD ∧ save badD = some badD2 ∧
    parse badD2.file_data = Except.error ParseErr.invalidMagic := by decide

/-- C6 (amended): for every loaded Document whose descriptor table starts at
or after the 24-byte header and ends at or before `string_data_offset`,
saving is idempotent in both senses: saving the post-save object again
returns a byte-identical buffer, and loading the saved bytes and saving the
reloaded Document also returns a byte-identical buffer. -/
theorem C6_idempotent_amended {buf : List Nat} {d d2 : MetadataFile}
    (hparse : parse buf = .ok d)
    (hslo : 24 ≤ d.string_literal_offset)
    (hsep : d.string_literal_offset + 8 * d.string_literal_count ≤
      d.string_literal_data_offset)
    (hsave : save d = some d2) :
    (∃ d5, save d2 = some d5 ∧ d5.file_data = d2.file_data) ∧
    (∃ d3 d4, parse d2.file_data = .ok d3 ∧ save d3 = some d4 ∧
      d4.file_data = d2.file_data) := by
  obtain ⟨hlen, hcnt_lits, hdo_le⟩ := parse_preconds hparse
  have hc : d.string_literal_count = d.str_bytes.length := by rw [hcnt_lits, hlen]
  have hsep2 : d.string_literal_offset + 8 * d.str_bytes.length ≤
      d.string_literal_data_offset := by omega
  obtain ⟨hstruct, hlenge, hsdo32, hT32, h24out, hdescbound, hheader, hframe,
    hpadzero, hdatabound⟩ := save_some_spec hlen hdo_le hsave
  obtain ⟨hdescbytes, hdatabytes, hdatalen⟩ := save_layout_spec hlen hdo_le hslo hsep2 hsave
  have hfd2 : d2.str_bytes = d.str_bytes := by rw [hstruct]
  have hslo2 : d2.string_literal_offset = d.string_literal_offset := by rw [hstruct]
  have hsdo2 : d2.string_literal_data_offset = d.string_literal_data_offset := by rw [hstruct]
  have hlits2 : d2.string_literals = newDescs d.str_bytes 0 := by rw [hstruct]
  constructor
  · have hid := @save_id_of_bytes d2
      (by rw [hlits2, hfd2, newDescs_length])
      h24out
      (by
        intro hne
        rw [hslo2, hfd2]
        rw [hfd2] at hne
        have := hdescbound hne
        omega)
      (by rw [hsdo2]; exact hsdo32)
      (by rw [hfd2, hsdo2]; exact hT32)
      (by
        intro i hi j hj
        rw [hfd2] at hi
        rw [hslo2, hfd2]
        exact hdescbytes i hi j hj)
      (by
        intro q hq
        rw [hfd2] at hq
        rw [hsdo2, hfd2]
        exact hdatabytes q hq)
      (by
        intro k hk1 hk2
        rw [hfd2] at hk1 hk2
        rw [hsdo2] at hk2 ⊢
        exact hpadzero k hk1 hk2)
      (by
        intro j hj
        rw [hfd2, hsdo2]
        exact hheader j hj)
      (by
        intro hpos
        rw [hfd2, hsdo2] at hpos ⊢
        have := hdatabound (by omega)
        omega)
    exact ⟨_, hid, rfl⟩
  · obtain ⟨d3, hp3, hfd3, hslo3, hcnt3, hsdo3, hlits3, hsb3⟩ :=
      save_reload hparse hslo hsep hsave
    have hid := @save_id_of_bytes d3
      (by rw [hlits3, hsb3, newDescs_length])
      (by rw [hfd3]; exact h24out)
      (by
        intro hne
        rw [hsb3] at hne
        rw [hslo3, hsb3, hfd3]
        have := hdescbound hne
        omega)
      (by rw [hsdo3]; exact hsdo32)
      (by rw [hsb3, hsdo3]; exact hT32)
      (by
        intro i hi j hj
        rw [hsb3] at hi
        rw [hslo3, hsb3, hfd3]
        exact hdescbytes i hi j hj)
      (by
        intro q hq
        rw [hsb3] at hq
        rw [hsdo3, hsb3, hfd3]
        exact hdatabytes q hq)
      (by
        intro k hk1 hk2
        rw [hsb3] at hk1 hk2
        rw [hsdo3] at hk2 ⊢
        rw [hfd3]
        exact hpadzero k hk1 hk2)
      (by
        intro j hj
        rw [hsb3, hsdo3, hfd3]
        exact hheader j hj)
      (by
        intro hpos
        rw [hsb3, hsdo3] at hpos ⊢
        rw [hfd3]
        have := hdatabound (by omega)
        omega)
    exact ⟨d3, _, hp3, hid, hfd3⟩

/-- C6 witness: the concrete one-string file `exBuf`. -/
theorem C6_witness :
    (∃ d5, save exD2 = some d5 ∧ d5.file_data = exD2.file_data) ∧
    (∃ d3 d4, parse exD2.file_data = .ok d3 ∧ save d3 = some d4 ∧
      d4.file_data = exD2.file_data) :=
  @C6_idempotent_amended exBuf exD exD2 (by decide) (by decide) (by decide) (by decide)

/-- C3 counterexample: `exC3Buf` declares a 100-byte payload span
`[32, 132)` that runs far past the 32-byte buffer, yet `load` succeeds and
produces a Document (the payload silently clamps to the empty span) instead
of failing with `TruncatedPayload`. -/
theorem C3_counterexample :
    (parse exC3Buf).isOk = true ∧
    (((parse exC3Buf).toOption.getD default).string_literal_data_offset +
      (((parse exC3Buf).toOption.getD default).string_literals.getD 0 default).offset +
      (((parse exC3Buf).toOption.getD default).string_literals.getD 0 default).length)
      > exC3Buf.length := by decide

/-- C3 (amended): `load` never fails because of a payload span: whenever the
magic matches, the 24-byte header is present, and the whole descriptor
table lies inside the buffer, `load` succeeds, and each payload is the span
clamped to the end of the buffer. -/
theorem C3_no_payload_check {buf : List Nat}
    (h24 : 24 ≤ buf.length)
    (hm : readU32v buf 0 = MAGIC)
    (hdescs : readU32v buf 8 + (readU32v buf 12 / 8) * 8 ≤ buf.length ∨
      readU32v buf 12 / 8 = 0) :
    ∃ d, parse buf = .ok d ∧
      d.str_bytes = d.string_literals.map (fun l =>
        sliceClamp buf (readU32v buf 16 + l.offset)
          (readU32v buf 16 + l.offset + l.length)) := by
  obtain ⟨lits, hrd⟩ := readDescs_isOk buf (readU32v buf 8) (readU32v buf 12 / 8) 0
    (by rcases hdescs with h | h
        · exact Or.inl (by omega)
        · exact Or.inr h)
  rw [parse_unfold, if_pos (by omega), if_pos hm, if_pos (by omega), if_pos (by omega),
    if_pos (by omega), if_pos (by omega), if_pos (by omega), hrd, exc_ok_bind]
  exact ⟨_, rfl, rfl⟩

/-- C3 witness: the span-overflowing buffer `exC3Buf` still loads. -/
theorem C3_witness :
    ∃ d, parse exC3Buf = .ok d ∧
      d.str_bytes = d.string_literals.map (fun l =>
        sliceClamp exC3Buf (readU32v exC3Buf 16 + l.offset)
          (readU32v exC3Buf 16 + l.offset + l.length)) :=
  @C3_no_payload_check exC3Buf (by decide) (by decide) (by decide)

/-- C4 counterexample: on the loaded one-string Document of `exBuf`
(`descriptor_count = 1`), `set_string` with index `-2` fails even though
`-2 < descriptor_count`: Python list assignment accepts negative indices
down to `-count` and raises `IndexError` below that, so "fails iff
`index ≥ descriptor_count`" is wrong. -/
theorem C4_counterexample :
    parse exBuf = .ok exD ∧ exD.str_bytes.length = 1 ∧ (-2 : Int) < 1 ∧
    set_string exD (-2) [Char.ofNat 120] = none := by decide

/-- C4 (amended): `set_string` fails iff `index ≥ descriptor_count` or
`index < -descriptor_count` (Python negative indexing); on failure nothing
is produced (the object is untouched); on success the addressed payload
(position `index`, or `count + index` for negative `index`) becomes
`utf8_bytes(text) ++ [0x00]` with exactly one NUL appended, every other
payload, the descriptor list, the buffer and the stored count are
unchanged, and the payload count is preserved, hence unchanged by any
sequence of `set_string` calls. -/
theorem C4_set_string_amended (d : MetadataFile) (index : Int) (text : List Char) :
    (set_string d index text = none ↔
      ((d.str_bytes.length : Int) ≤ index ∨ index + (d.str_bytes.length : Int) < 0)) ∧
    (∀ d', set_string d index text = some d' →
      d'.string_literals = d.string_literals ∧
      d'.string_literal_count = d.string_literal_count ∧
      d'.file_data = d.file_data ∧
      d'.str_bytes.length = d.str_bytes.length ∧
      (0 ≤ index → d'.str_bytes.getD index.toNat [] = utf8Encode text ++ [0]) ∧
      (index < 0 →
        d'.str_bytes.getD (index + (d.str_bytes.length : Int)).toNat [] =
          utf8Encode text ++ [0]) ∧
      (∀ j : Nat, j < d.str_bytes.length →
        (index : Int) ≠ (j : Int) → (index + (d.str_bytes.length : Int)) ≠ (j : Int) →
        d'.str_bytes.getD j [] = d.str_bytes.getD j [])) := by
  unfold set_string
  dsimp only
  constructor
  · split_ifs with h1 h2
    · simp only [reduceCtorEq, false_iff]
      omega
    · simp only [reduceCtorEq, false_iff]
      omega
    · simp only [true_iff]
      omega
  · intro d' hd'
    split_ifs at hd' with h1 h2
    · injection hd' with hd'
      subst hd'
      dsimp only
      refine ⟨rfl, rfl, rfl, by simp, ?_, ?_, ?_⟩
      · intro _
        rw [List.getD_eq_getElem?_getD, List.getElem?_set_self (by omega)]
        rfl
      · intro hneg
        omega
      · intro j hj hne1 _
        rw [List.getD_eq_getElem?_getD, List.getD_eq_getElem?_getD,
          List.getElem?_set_ne (by omega)]
    · injection hd' with hd'
      subst hd'
      dsimp only
      refine ⟨rfl, rfl, rfl, by simp, ?_, ?_, ?_⟩
      · intro hpos
        omega
      · intro _
        rw [List.getD_eq_getElem?_getD, List.getElem?_set_self (by omega)]
        rfl
      · intro j hj _ hne2
        rw [List.getD_eq_getElem?_getD, List.getD_eq_getElem?_getD,
          List.getElem?_set_ne (by omega)]

/-- C4 witness: on the loaded one-string Document of `exBuf` at index 0. -/
theorem C4_witness :
    (set_string exD 0 [Char.ofNat 120] = none ↔
      ((exD.str_bytes.length : Int) ≤ 0 ∨ (0 : Int) + (exD.str_bytes.length : Int) < 0)) ∧
    (∀ d', set_string exD 0 [Char.ofNat 120] = some d' →
      d'.string_literals = exD.string_literals ∧
      d'.string_literal_count = exD.string_literal_count ∧
      d'.file_data = exD.file_data ∧
      d'.str_bytes.length = exD.str_bytes.length ∧
      ((0 : Int) ≤ 0 → d'.str_bytes.getD (0 : Int).toNat [] =
        utf8Encode [Char.ofNat 120] ++ [0]) ∧
      ((0 : Int) < 0 →
        d'.str_bytes.getD ((0 : Int) + (exD.str_bytes.length : Int)).toNat [] =
          utf8Encode [Char.ofNat 120] ++ [0]) ∧
      (∀ j : Nat, j < exD.str_bytes.length →
        ((0 : Int) : Int) ≠ (j : Int) →
        ((0 : Int) + (exD.str_bytes.length : Int)) ≠ (j : Int) →
        d'.str_bytes.getD j [] = exD.str_bytes.getD j [])) :=
  C4_set_string_amended exD 0 [Char.ofNat 120]

/-- C5 counterexample: on the payload `[0x00, 0x80]` (a NUL byte followed by
an invalid start byte) the source's `decode_text` — which strips trailing
NUL *bytes* first and then decodes — returns `"\x00"`, while the spec's
order — decode lossily, then strip trailing NUL characters from the decoded
text — returns `""`. -/
theorem C5_counterexample :
    decode_text [0, 0x80] ≠ decode_text_spec [0, 0x80] := by decide

/-- C5 (amended): `decode_text` strips trailing NUL bytes from the payload
and then decodes lossily; the two orders agree on every payload that is a
valid UTF-8 encoding (and `decode_text` never modifies the stored
payload — it is a pure function of it). -/
theorem C5_decode_text_amended (p : List Nat) (cs : List Char)
    (h : p = utf8Encode cs) :
    decode_text p = decode_text_spec p := by
  subst h
  rw [decode_text_encoded, decode_text_spec_encoded]

/-- C5 witness: the payload `"a\x00"` as UTF-8 bytes. -/
theorem C5_witness : decode_text [97, 0] = decode_text_spec [97, 0] :=
  C5_decode_text_amended [97, 0] [Char.ofNat 97, Char.ofNat 0] (by decide)

/-- C9: for a loaded file, page `p ≥ 1` and page size `s`, the listing
endpoint returns exactly the decoded strings of the contiguous index slice
`[(p-1)*s, min(p*s, count))`, the starting index `(p-1)*s`, and a has-more
flag that is true iff `min(p*s, count) < count`. -/
theorem C9_pagination (d : MetadataFile) (page limit : Nat) (hp : 1 ≤ page) :
    (get_strings_page d page limit).1 =
      ((get_strings d).take (min (page * limit) (get_strings d).length)).drop
        ((page - 1) * limit) ∧
    (get_strings_page d page limit).2.1 = (page - 1) * limit ∧
    ((get_strings_page d page limit).2.2 = true ↔
      min (page * limit) (get_strings d).length < (get_strings d).length) ∧
    (∀ i, (page - 1) * limit + i < min (page * limit) (get_strings d).length →
      (get_strings_page d page limit).1.getD i [] =
        (get_strings d).getD ((page - 1) * limit + i) []) := by
  have hkey : (page - 1) * limit + limit = page * limit := by
    cases page with
    | zero => omega
    | succ p => simp [Nat.succ_sub_one, Nat.succ_mul]
  unfold get_strings_page
  dsimp only
  rw [hkey]
  refine ⟨rfl, rfl, by simp, ?_⟩
  intro i hi
  exact getD_drop_take [] (get_strings d) ((page - 1) * limit)
    (min (page * limit) (get_strings d).length) i hi

/-- C9 witness: page 1 of size 10 over the loaded one-string `exBuf`. -/
theorem C9_witness :
    (get_strings_page exD 1 10).1 =
      ((get_strings exD).take (min (1 * 10) (get_strings exD).length)).drop
        ((1 - 1) * 10) ∧
    (get_strings_page exD 1 10).2.1 = (1 - 1) * 10 ∧
    ((get_strings_page exD 1 10).2.2 = true ↔
      min (1 * 10) (get_strings exD).length < (get_strings exD).length) ∧
    (∀ i, (1 - 1) * 10 + i < min (1 * 10) (get_strings exD).length →
      (get_strings_page exD 1 10).1.getD i [] =
        (get_strings exD).getD ((1 - 1) * 10 + i) []) :=
  C9_pagination exD 1 10 (by decide)

/-- C10: a buffer whose first four bytes are the little-endian magic but
whose total length is under 24 bytes makes `load` fail while unpacking the
fixed header fields: the raised error is a `struct.error` at one of the
header offsets 4, 8, 12, 16 or 20 — not the magic-check failure, and not a
failure of the descriptor or payload reads (which are never reached) — and
no Document is produced. -/
theorem C10_short_header {buf : List Nat}
    (hmagic : buf.take 4 = [0xAF, 0x1B, 0xB1, 0xFA])
    (hshort : buf.length < 24) :
    ∃ o, parse buf = .error (.structError o) ∧ 4 ≤ o ∧ o ≤ 20 ∧ o % 4 = 0 ∧
      parse buf ≠ .error .invalidMagic ∧ (parse buf).isOk = false := by
  have hlen4 : 4 ≤ buf.length := by
    have := congrArg List.length hmagic
    rw [List.length_take] at this
    simp at this
    omega
  have hb : ∀ j, j < 4 → buf.getD j 0 = [0xAF, 0x1B, 0xB1, 0xFA].getD j 0 := by
    intro j hj
    have := congrArg (fun l => l.getD j 0) hmagic
    dsimp only at this
    rw [List.getD_eq_getElem?_getD, List.getElem?_take_of_lt hj,
      ← List.getD_eq_getElem?_getD] at this
    exact this
  have hm : readU32v buf 0 = MAGIC := by
    have h0 := hb 0 (by omega)
    have h1 := hb 1 (by omega)
    have h2 := hb 2 (by omega)
    have h3 := hb 3 (by omega)
    simp only [List.getD_cons_zero, List.getD_cons_succ] at h0 h1 h2 h3
    have h1b : buf.getD (0 + 1) 0 = 27 := h1
    have h2b : buf.getD (0 + 2) 0 = 177 := h2
    have h3b : buf.getD (0 + 3) 0 = 250 := h3
    unfold readU32v
    rw [h0, h1b, h2b, h3b]
    rfl
  rw [parse_unfold, if_pos (by omega), if_pos hm]
  by_cases h4 : 4 + 4 ≤ buf.length
  · rw [if_pos h4]
    by_cases h8 : 8 + 4 ≤ buf.length
    · rw [if_pos h8]
      by_cases h12 : 12 + 4 ≤ buf.length
      · rw [if_pos h12]
        by_cases h16 : 16 + 4 ≤ buf.length
        · rw [if_pos h16, if_neg (by omega)]
          exact ⟨20, rfl, by omega, by omega, by omega, by simp, rfl⟩
        · rw [if_neg h16]
          exact ⟨16, rfl, by omega, by omega, by omega, by simp, rfl⟩
      · rw [if_neg h12]
        exact ⟨12, rfl, by omega, by omega, by omega, by simp, rfl⟩
    · rw [if_neg h8]
      exact ⟨8, rfl, by omega, by omega, by omega, by simp, rfl⟩
  · rw [if_neg h4]
    exact ⟨4, rfl, by omega, by omega, by omega, by simp, rfl⟩

/-- C10 witness: a 6-byte buffer starting with the magic. -/
theorem C10_witness :
    ∃ o, parse [0xAF, 0x1B, 0xB1, 0xFA, 1, 2] = .error (.structError o) ∧
      4 ≤ o ∧ o ≤ 20 ∧ o % 4 = 0 ∧
      parse [0xAF, 0x1B, 0xB1, 0xFA, 1, 2] ≠ .error .invalidMagic ∧
      (parse [0xAF, 0x1B, 0xB1, 0xFA, 1, 2]).isOk = false :=
  @C10_short_header [0xAF, 0x1B, 0xB1, 0xFA, 1, 2] (by decide) (by decide)

end MetadataEditor
